import Mathlib

/-!
# Verification of the screenplay structural parser (`src/lib/pdfscript.cjs`)

This file gives a shallow embedding of the `FilmScriptAnalyzer` parsing
pipeline: line classification, scene accumulation, the character registry,
the dialogue index, the interaction-graph builder and the summary
aggregator.  Strings are modelled as `List Char` (JavaScript string lengths
count UTF-16 code units; all data handled by the claims is in the Basic
Multilingual Plane, where the two notions of length and of lexicographic
order coincide).  JavaScript regular expressions are modelled by explicit
backtracking-faithful recursions.  Real-time inputs (`new Date()`,
`performance.now()`) are made explicit parameters.
-/

namespace FilmScript

/-- Code point of a character, as a natural number. -/
def cv (c : Char) : Nat := c.toNat

/-- ASCII uppercase letter `A`–`Z`. -/
def isAZ (c : Char) : Bool := 65 ≤ cv c && cv c ≤ 90

/-- ASCII lowercase letter `a`–`z`. -/
def isLowAZ (c : Char) : Bool := 97 ≤ cv c && cv c ≤ 122

/-- ASCII digit `0`–`9` (JavaScript `\d`). -/
def isDigitC (c : Char) : Bool := 48 ≤ cv c && cv c ≤ 57

/-- JavaScript regex word character `[A-Za-z0-9_]` (used by `\b`). -/
def isWordChar (c : Char) : Bool := isAZ c || isLowAZ c || isDigitC c || c = '_'

/-- ASCII-only uppercasing.  JavaScript `/i` canonicalisation never maps a
non-ASCII character onto an ASCII one, so matching an ASCII pattern letter
case-insensitively is exactly `asciiUpper input = pattern`. -/
def asciiUpper (c : Char) : Char := if isLowAZ c then Char.ofNat (cv c - 32) else c

/-- The JavaScript `\s` class (WhiteSpace and LineTerminator productions). -/
def jsWs (c : Char) : Bool :=
  let n := cv c
  n = 9 || n = 10 || n = 11 || n = 12 || n = 13 || n = 32 || n = 0xa0 ||
  n = 0x1680 || (0x2000 ≤ n && n ≤ 0x200a) || n = 0x2028 || n = 0x2029 ||
  n = 0x202f || n = 0x205f || n = 0x3000 || n = 0xfeff

/-- JavaScript line terminators: `.` in a regex matches everything else. -/
def isLineTerm (c : Char) : Bool :=
  cv c = 10 || cv c = 13 || cv c = 0x2028 || cv c = 0x2029

/-- Remove trailing `jsWs` characters. -/
def trimRight : List Char → List Char
  | [] => []
  | c :: rest =>
    match trimRight rest with
    | [] => if jsWs c then [] else [c]
    | r => c :: r

/-- JavaScript `String.prototype.trim`. -/
def jsTrim (l : List Char) : List Char := trimRight (l.dropWhile jsWs)

/-- JavaScript `text.split('\n')`. -/
def splitNl : List Char → List (List Char)
  | [] => [[]]
  | c :: rest =>
    let r := splitNl rest
    if c = '\n' then [] :: r
    else
      match r with
      | l :: ls => (c :: l) :: ls
      | [] => [[c]]

/-- `Set.prototype.add` on an insertion-ordered set modelled as a
duplicate-free list. -/
def addToSet (l : List (List Char)) (n : List Char) : List (List Char) :=
  if n ∈ l then l else l ++ [n]

/-- Strict lexicographic order on code points: the JavaScript `<` comparison
on strings (identical to UTF-16 code-unit order on BMP data). -/
def lexLt : List Char → List Char → Bool
  | [], [] => false
  | [], _ :: _ => true
  | _ :: _, [] => false
  | a :: as, b :: bs =>
    if cv a < cv b then true else if cv b < cv a then false else lexLt as bs

/-- `a ≤ b` in the JavaScript string order. -/
def lexLe (a b : List Char) : Bool := !lexLt b a

/-- Insert into a lexicographically sorted list. -/
def insertLex (a : List Char) : List (List Char) → List (List Char)
  | [] => [a]
  | b :: bs => if lexLe a b then a :: b :: bs else b :: insertLex a bs

/-- `Array.prototype.sort()` with the default comparator, on a list of
pairwise-distinct strings: the unique lexicographically sorted reordering. -/
def sortLex : List (List Char) → List (List Char)
  | [] => []
  | a :: as => insertLex a (sortLex as)

/-- `Array.prototype.join(' ')`. -/
def joinSpace (l : List (List Char)) : List Char := List.intercalate [' '] l

/-- Worker for `collapseWs`; `prevWs` records whether the previous character
was part of a whitespace run already replaced. -/
def collapseWsGo (prevWs : Bool) : List Char → List Char
  | [] => []
  | c :: rest =>
    if jsWs c then
      if prevWs then collapseWsGo true rest else ' ' :: collapseWsGo true rest
    else c :: collapseWsGo false rest

/-- JavaScript `replace(/\s+/g, ' ')`: every maximal whitespace run becomes
one space. -/
def collapseWs (l : List Char) : List Char := collapseWsGo false l

/-- Lazy `\(.*?\)` body: number of characters consumed up to and including
the first `)`, or `none` if a line terminator or the end intervenes
(`.` does not match line terminators). -/
def lazyClose : List Char → Option Nat
  | [] => none
  | c :: rest =>
    if c = ')' then some 1
    else if isLineTerm c then none
    else (lazyClose rest).map (· + 1)

/-- Length of a match of `\s*\(.*?\)` anchored at the head of `l`, if any.
The greedy `\s*` must reach a `(` (shorter splits put a whitespace character
where `(` is required, so no other split can succeed). -/
def matchParenAt (l : List Char) : Option Nat :=
  let w := (l.takeWhile jsWs).length
  match l.drop w with
  | '(' :: rest => (lazyClose rest).map (fun j => w + 1 + j)
  | _ => none

/-- JavaScript `replace(/\s*\(.*?\)/, '')`: delete the first (leftmost)
match only (if a match starts at the current position, drop it; otherwise
keep the character and look one position further right). -/
def replaceParen : List Char → List Char
  | [] => []
  | c :: rest =>
    (matchParenAt (c :: rest)).elim (c :: replaceParen rest) (fun n => (c :: rest).drop n)

/-- `[...new Set(xs)]`: first-occurrence-order deduplication. -/
def dedupFirst (l : List (List Char)) : List (List Char) := l.foldl addToSet []

/-! ## Regular-expression models for the line classifier -/

/-- Match the ASCII pattern `pat` (uppercase letters and `.`) at the head of
`l`, case-insensitively; return the rest of `l`. -/
def stripPatCI : List Char → List Char → Option (List Char)
  | [], l => some l
  | _ :: _, [] => none
  | p :: ps, c :: cs => if asciiUpper c = p then stripPatCI ps cs else none

/-- The slug alternation `(INT\.|EXT\.|INTERIOR|EXTERIOR)` (the alternatives
are mutually exclusive, so first-match order never backtracks). -/
def stripSlugCI (l : List Char) : Option (List Char) :=
  match stripPatCI "INT.".data l with
  | some r => some r
  | none =>
    match stripPatCI "EXT.".data l with
    | some r => some r
    | none =>
      match stripPatCI "INTERIOR".data l with
      | some r => some r
      | none => stripPatCI "EXTERIOR".data l

/-- The optional leading scene number `\d+\s+`: a maximal nonempty digit run
followed by a maximal nonempty whitespace run (backtracking to shorter runs
puts a digit or a whitespace character where the next token is required, so
only the maximal runs can succeed). -/
def stripLeadNum (l : List Char) : Option (List Char) :=
  let ds := l.takeWhile isDigitC
  if ds.isEmpty then none
  else
    let rest := l.drop ds.length
    let ws := rest.takeWhile jsWs
    if ws.isEmpty then none else some (rest.drop ws.length)

/-- After at least one `\s` character has been consumed: `.`+ must start
here, so scan over whitespace line-terminators until a non-terminator. -/
def afterWsDot : List Char → Bool
  | [] => false
  | c :: cs => if !isLineTerm c then true else jsWs c && afterWsDot cs

/-- `\s+(.+)` anchored at the head of `l`. -/
def matchWsThenDot : List Char → Bool
  | [] => false
  | c :: cs => jsWs c && afterWsDot cs

/-- Scene-heading test: `/^(?:\d+\s+)?(INT\.|EXT\.|INTERIOR|EXTERIOR)\s+(.+)/i`
applied to a (trimmed) line. -/
def sceneIsHeading (l : List Char) : Bool :=
  (match stripLeadNum l with
   | some rest =>
     match stripSlugCI rest with
     | some r => matchWsThenDot r
     | none => false
   | none => false) ||
  (match stripSlugCI l with
   | some r => matchWsThenDot r
   | none => false)

/-- The character class `[A-Z\s'().-]` of the character-cue regex. -/
def cueClass (c : Char) : Bool :=
  isAZ c || jsWs c || c = '\'' || c = '(' || c = ')' || c = '.' || c = '-'

/-- `/^([A-Z][A-Z\s'().-]{1,49}):\s*(.*)/`.  The greedy `{1,49}` group can
only end at the first character outside the class (the class excludes `:`),
so the match succeeds exactly when that maximal run has length 1–49 and is
followed by `:`.  `\s*` greedily eats all whitespace after the colon and
`(.*)` captures the following non-line-terminator characters. -/
def charCueMatch (l : List Char) : Option (List Char × List Char) :=
  match l with
  | [] => none
  | c :: rest =>
    if isAZ c then
      let run := rest.takeWhile cueClass
      if 1 ≤ run.length && run.length ≤ 49 then
        match rest.drop run.length with
        | ':' :: tail =>
          some (c :: run, (tail.dropWhile jsWs).takeWhile (fun ch => !isLineTerm ch))
        | _ => none
      else none
    else none

/-- The stoplist of `/^(INT|EXT|FADE|CUT|INTERIOR|EXTERIOR|SCENE|THE|AND|OR|TO|IN|ON|AT|TIME|PLACE|LOCATION|CONT|CONTINUED|MORE)$/i`. -/
def invalidPatterns : List (List Char) :=
  ["INT", "EXT", "FADE", "CUT", "INTERIOR", "EXTERIOR", "SCENE", "THE", "AND",
   "OR", "TO", "IN", "ON", "AT", "TIME", "PLACE", "LOCATION", "CONT",
   "CONTINUED", "MORE"].map String.data

/-- Case-insensitive whole-string test against the stoplist. -/
def isStop (name : List Char) : Bool :=
  invalidPatterns.any (fun w => name.map asciiUpper = w)

/-- Character-name normalisation applied to the cue capture:
`.trim().replace(/\s*\(.*?\)/, '').replace(/\s+/g, ' ').trim()`. -/
def normalizeName (g1 : List Char) : List Char :=
  jsTrim (collapseWs (replaceParen (jsTrim g1)))

/-- The stoplist used by the own-line character branch (exact,
case-sensitive `Array.prototype.includes`). -/
def commonWords : List (List Char) :=
  ["THE", "AND", "OR", "TO", "IN", "ON", "AT", "FADE", "CUT", "INT", "EXT"].map
    String.data

/-- `/^[A-Z'\s]+$/` together with the surrounding length guard. -/
def soloCueTest (l : List Char) : Bool :=
  (!l.isEmpty && l.all (fun c => isAZ c || c = '\'' || jsWs c)) &&
  (2 < l.length && l.length < 30)

/-- `/^[A-Z][A-Z\s'().]+$/` together with the surrounding length guard. -/
def extCueTest (l : List Char) : Bool :=
  (match l with
   | c :: rest =>
     isAZ c && !rest.isEmpty &&
       rest.all (fun ch => isAZ ch || jsWs ch || ch = '\'' || ch = '(' || ch = ')' || ch = '.')
   | [] => false) &&
  l.length < 50

/-! ## `extractLocation`: `/^(?:INT\.|EXT\.|INTERIOR|EXTERIOR)\s+(.+?)(?:\s+-\s+|\s+–\s+|$)/i` -/

/-- After the maximal whitespace run, the dash (hyphen or en-dash) must
appear, followed by at least one whitespace character. -/
def sepAfterWs : List Char → Bool
  | [] => false
  | c :: rest =>
    if jsWs c then sepAfterWs rest
    else
      (c = '-' || c = Char.ofNat 0x2013) &&
        (match rest with
         | r :: _ => jsWs r
         | [] => false)

/-- Does `\s+-\s+` or `\s+–\s+` match at the head of `l`? -/
def sepAt : List Char → Bool
  | [] => false
  | c :: rest => jsWs c && sepAfterWs rest

/-- The lazy capture `(.+?)` followed by `(?:sep|$)`: the shortest nonempty
prefix of non-line-terminator characters whose remainder starts a separator
or is empty. -/
def lazyLocAux (acc : List Char) : List Char → Option (List Char)
  | [] => none
  | c :: rest =>
    if isLineTerm c then none
    else if rest.isEmpty || sepAt rest then some (acc ++ [c])
    else lazyLocAux (acc ++ [c]) rest

/-- Greedy `\s+` with backtracking, one whitespace character already
consumed: prefer to extend the whitespace run; on failure start the lazy
capture at the current character. -/
def locTry : List Char → Option (List Char)
  | [] => none
  | c :: rest =>
    if jsWs c then
      match locTry rest with
      | some v => some v
      | none => lazyLocAux [] (c :: rest)
    else lazyLocAux [] (c :: rest)

/-- `extractLocation(sceneHeader)`: the captured group trimmed, or `''` when
the regex does not match.  Note that the regex has no leading-scene-number
group. -/
def extractLocation (h : List Char) : List Char :=
  match stripSlugCI h with
  | none => []
  | some rest =>
    match rest with
    | [] => []
    | c :: rest' =>
      if jsWs c then
        match locTry rest' with
        | some v => jsTrim v
        | none => []
      else []

/-! ## `extractTimeOfDay`: `/\b(DAY|NIGHT|MORNING|AFTERNOON|EVENING|DAWN|DUSK|CONTINUOUS|LATER|SAME TIME)\b/i` -/

/-- The vocabulary, in source alternation order. -/
def timeKeywords : List (List Char) :=
  ["DAY", "NIGHT", "MORNING", "AFTERNOON", "EVENING", "DAWN", "DUSK",
   "CONTINUOUS", "LATER", "SAME TIME"].map String.data

/-- Case-insensitive keyword match at the head of `l`, returning the matched
input characters and the rest. -/
def kwMatchCI : List Char → List Char → Option (List Char × List Char)
  | [], rest => some ([], rest)
  | _ :: _, [] => none
  | p :: ps, c :: cs =>
    if asciiUpper c = p then (kwMatchCI ps cs).map (fun pr => (c :: pr.1, pr.2)) else none

/-- Try the alternatives in order at one position; the trailing `\b` needs a
non-word character (or the end) after the match. -/
def tryTimeKws : List (List Char) → List Char → Option (List Char)
  | [], _ => none
  | kw :: kws, l =>
    match kwMatchCI kw l with
    | some (m, r) =>
      if (match r with
          | [] => true
          | c :: _ => !isWordChar c) then some m
      else tryTimeKws kws l
    | none => tryTimeKws kws l

/-- Left-to-right scan; `pw` is the wordness of the previous character.  All
keywords start with a letter, so the leading `\b` requires `pw = false`. -/
def todScan (pw : Bool) : List Char → Option (List Char)
  | [] => none
  | c :: cs =>
    match (if !pw then tryTimeKws timeKeywords (c :: cs) else none) with
    | some m => some m
    | none => todScan (isWordChar c) cs

/-- `extractTimeOfDay(sceneHeader)`: the first vocabulary keyword found,
uppercased, else `'UNSPECIFIED'`.  `toUpperCase` only ever sees characters
that case-insensitively matched an ASCII keyword, where it agrees with
`asciiUpper`. -/
def extractTimeOfDay (h : List Char) : List Char :=
  match todScan false h with
  | some m => m.map asciiUpper
  | none => "UNSPECIFIED".data

/-! ## Data model -/

/-- One record of the Scene output (`this.scenes` elements). -/
structure Scene where
  sceneNumber : Nat
  Scene_Names : List Char
  Scene_action : List Char
  Scene_Characters : Option (List (List Char))
  Scene_Dialogue : Option (List (List Char))
  Contents : List Char
  location : List Char
  timeOfDay : List Char
deriving DecidableEq, Repr, Inhabited

/-- One record of the Dialogue Index (`this.dialogues` elements). -/
structure DialogueEntry where
  sceneNumber : Nat
  characters : List Char
  Character_dialogue : List Char
  lineNumber : Nat
deriving DecidableEq, Repr, Inhabited

/-- One record of the Interaction output (`this.interactions` elements). -/
structure Interaction where
  character1 : List Char
  character2 : List Char
  scenes : List Nat
  interactionCount : Nat
deriving DecidableEq, Repr, Inhabited

/-- The mutable parsing state of `parseScreenplay` (instance fields plus the
loop locals). -/
structure PState where
  scenes : List Scene
  dialogues : List DialogueEntry
  characters : List (List Char)
  currentScene : Option (List Char)
  currentSceneAction : List Char
  currentSceneCharacters : List (List Char)
  currentSceneDialogues : List (List Char)
  sceneNumber : Nat
deriving DecidableEq, Repr

/-- The state at the start of a run. -/
def initState : PState :=
  { scenes := [], dialogues := [], characters := [], currentScene := none,
    currentSceneAction := [], currentSceneCharacters := [],
    currentSceneDialogues := [], sceneNumber := 0 }

/-- Register a character: `this.characters.add(c)` plus the guarded push onto
`currentSceneCharacters` (the code repeats this pattern in all three
character branches). -/
def addChar (s : PState) (c : List Char) : PState :=
  { s with
    characters := addToSet s.characters c,
    currentSceneCharacters :=
      if c ∈ s.currentSceneCharacters then s.currentSceneCharacters
      else s.currentSceneCharacters ++ [c] }

/-- Finalize the open scene `cur` and append it with the next sequential
number (the identical push at lines 75–87 and 148–160 of the source). -/
def closeScene (s : PState) (cur : List Char) : PState :=
  { s with
    sceneNumber := s.sceneNumber + 1,
    scenes := s.scenes ++ [{
      sceneNumber := s.sceneNumber + 1,
      Scene_Names := cur,
      Scene_action := jsTrim s.currentSceneAction,
      Scene_Characters :=
        if 0 < s.currentSceneCharacters.length then some s.currentSceneCharacters else none,
      Scene_Dialogue :=
        if 0 < s.currentSceneDialogues.length then some s.currentSceneDialogues else none,
      Contents := jsTrim s.currentSceneAction ++ '\n' :: joinSpace s.currentSceneDialogues,
      location := extractLocation cur,
      timeOfDay := extractTimeOfDay cur }] }

/-- The Scene-Heading branch: close the previous scene if any, then open a
new one. -/
def stepHeading (s : PState) (t : List Char) : PState :=
  let s1 :=
    (match s.currentScene with
     | some cur => closeScene s cur
     | none => s)
  { s1 with
    currentScene := some t
    currentSceneAction := []
    currentSceneCharacters := []
    currentSceneDialogues := [] }

/-- The Character-Cue-With-Dialogue branch (taken whenever the line contains
a colon and is shorter than 200; a failed match or a rejected name consumes
the line with no effect). -/
def stepCue (i : Nat) (s : PState) (t : List Char) : PState :=
  match charCueMatch t with
  | none => s
  | some (g1, g2) =>
    let character := normalizeName g1
    let dialogue := jsTrim g2
    if character ≠ [] ∧ 1 < character.length ∧ character.length < 50 ∧ isStop character = false then
      let s1 := addChar s character
      if dialogue ≠ [] then
        { s1 with
          currentSceneDialogues := s1.currentSceneDialogues ++ [dialogue],
          dialogues := s1.dialogues ++ [{
            sceneNumber := s.sceneNumber + 1,
            characters := character,
            Character_dialogue := dialogue,
            lineNumber := i + 1 }] }
      else s1
    else s

/-- The own-line character branch (`/^[A-Z'\s]+$/`). -/
def stepSolo (s : PState) (t : List Char) : PState :=
  let character := replaceParen (jsTrim t)
  if character ≠ [] ∧ character ∉ commonWords then addChar s character else s

/-- The additional character-detection branch (`/^[A-Z][A-Z\s'().]+$/`). -/
def stepExt (s : PState) (t : List Char) : PState :=
  let character := replaceParen (jsTrim t)
  if character ≠ [] ∧ 1 < character.length then addChar s character else s

/-- One iteration of the line loop; `i` is the zero-based line index. -/
def step (i : Nat) (s : PState) (raw : List Char) : PState :=
  let t := jsTrim raw
  if t = [] then s
  else if sceneIsHeading t then stepHeading s t
  else if t.contains ':' && decide (t.length < 200) then stepCue i s t
  else if soloCueTest t then stepSolo s t
  else if extCueTest t then stepExt s t
  else { s with currentSceneAction := s.currentSceneAction ++ ' ' :: t }

/-- The `for` loop over all lines. -/
def runLines (i : Nat) (s : PState) : List (List Char) → PState
  | [] => s
  | l :: ls => runLines (i + 1) (step i s l) ls

/-! ## Interaction graph builder (`analyzeCharacterInteractions`) -/

/-- Add one dialogue entry to the scene grouping `Map` (insertion-ordered
association list keyed by `sceneNumber`). -/
def groupAdd (gs : List (Nat × List DialogueEntry)) (d : DialogueEntry) :
    List (Nat × List DialogueEntry) :=
  match gs with
  | [] => [(d.sceneNumber, [d])]
  | (k, ds) :: rest =>
    if k = d.sceneNumber then (k, ds ++ [d]) :: rest else (k, ds) :: groupAdd rest d

/-- Group the Dialogue Index by scene number. -/
def groupDialogues (l : List DialogueEntry) : List (Nat × List DialogueEntry) :=
  l.foldl groupAdd []

/-- All `i < j` index pairs of a list, in loop order. -/
def allPairs : List (List Char) → List (List Char × List Char)
  | [] => []
  | c :: cs => cs.map (fun c2 => (c, c2)) ++ allPairs cs

/-- `[char1, char2].sort()` on two strings. -/
def sortPair (a b : List Char) : List Char × List Char :=
  if lexLe a b then (a, b) else (b, a)

/-- `[char1, char2].sort().join('|')`: the interaction `Map` key. -/
def interKey (a b : List Char) : List Char :=
  (sortPair a b).1 ++ '|' :: (sortPair a b).2

/-- Look up or create the interaction record for the pair `(c1, c2)`, then
push the scene number and bump the count (net effect of lines 210–221 of the
source; a `Map` keeps insertion order, so a fresh key is appended). -/
def interUpd (sn : Nat) (c1 c2 : List Char) :
    List (List Char × Interaction) → List (List Char × Interaction)
  | [] => [(interKey c1 c2,
      { character1 := c1, character2 := c2, scenes := [sn], interactionCount := 1 })]
  | (k, r) :: rest =>
    if k = interKey c1 c2 then
      (k, { r with scenes := r.scenes ++ [sn],
                   interactionCount := r.interactionCount + 1 }) :: rest
    else (k, r) :: interUpd sn c1 c2 rest

/-- Process one scene group: all unordered pairs of the distinct speakers. -/
def processGroup (m : List (List Char × Interaction)) (g : Nat × List DialogueEntry) :
    List (List Char × Interaction) :=
  (allPairs (dedupFirst (g.2.map (·.characters)))).foldl
    (fun m p => interUpd g.1 p.1 p.2 m) m

/-- The interaction `Map` built from a Dialogue Index. -/
def interMapOf (dialogues : List DialogueEntry) : List (List Char × Interaction) :=
  (groupDialogues dialogues).foldl processGroup []

/-- `analyzeCharacterInteractions`: the `Map` values in insertion order. -/
def analyzeCharacterInteractions (dialogues : List DialogueEntry) : List Interaction :=
  (interMapOf dialogues).map (·.2)

/-! ## `parseScreenplay` -/

/-- The collections held by the analyzer after `parseScreenplay` returns. -/
structure ParseResult where
  scenes : List Scene
  dialogues : List DialogueEntry
  characters : List (List Char)
  movieCharacters : List (List Char)
  interactions : List Interaction
deriving DecidableEq, Repr

/-- The state after the line loop has consumed the whole input. -/
def runState (text : String) : PState := runLines 0 initState (splitNl text.data)

/-- The state after the trailing "save the last scene" block. -/
def finalState (text : String) : PState :=
  match (runState text).currentScene with
  | some cur => closeScene (runState text) cur
  | none => runState text

/-- `parseScreenplay(text)`: run the line loop, close the last open scene,
filter and sort the character registry, and build the interaction graph. -/
def parseScreenplay (text : String) : ParseResult :=
  { scenes := (finalState text).scenes,
    dialogues := (finalState text).dialogues,
    characters := (finalState text).characters,
    movieCharacters :=
      sortLex ((finalState text).characters.filter fun c => 1 < c.length && c.length < 50),
    interactions := analyzeCharacterInteractions (finalState text).dialogues }

/-! ## Summary aggregator and `runCompleteAnalysis`

`new Date().toISOString()` and the `performance.now()` duration are ambient
real-time inputs of the source; they appear here as the explicit parameters
`analysisTimestamp` and `processingTime`.  JavaScript float arithmetic on
the small averages is modelled over `Rat`. -/

/-- JavaScript `Math.round`: half-up. -/
def jsRound (q : Rat) : Int := ⌊q + 1 / 2⌋

/-- `scene.Scene_Characters?.length || 0`. -/
def sceneCharCount (sc : Scene) : Nat :=
  match sc.Scene_Characters with
  | some cl => cl.length
  | none => 0

/-- The object returned by `generateSummary`. -/
structure Summary where
  scriptName : List Char
  totalScenes : Nat
  totalCharacters : Nat
  totalDialogues : Nat
  totalInteractions : Nat
  analysisTimestamp : List Char
  averageDialoguesPerScene : Rat
  charactersPerScene : Rat
deriving DecidableEq, Repr

/-- `generateSummary()`, reading the analyzer fields after parsing. -/
def generateSummary (scriptName : List Char) (r : ParseResult)
    (analysisTimestamp : List Char) : Summary :=
  { scriptName := scriptName
    totalScenes := r.scenes.length
    totalCharacters := r.movieCharacters.length
    totalDialogues := r.dialogues.length
    totalInteractions := r.interactions.length
    analysisTimestamp := analysisTimestamp
    averageDialoguesPerScene :=
      if 0 < r.scenes.length then
        (jsRound ((r.dialogues.length : Rat) / (r.scenes.length : Rat) * 100) : Rat) / 100
      else 0
    charactersPerScene :=
      if 0 < r.scenes.length then
        (jsRound (((r.scenes.foldl (fun sum sc => sum + sceneCharCount sc) 0 : Nat) : Rat)
          / (r.scenes.length : Rat) * 100) : Rat) / 100
      else 0 }

/-- The summary actually returned: `{...summary, processingTimeMs,
averageSceneLength}`. -/
structure FullSummary extends Summary where
  processingTimeMs : Int
  averageSceneLength : Int
deriving DecidableEq, Repr

/-- The bundle returned by `runCompleteAnalysis`. -/
structure AnalysisResult where
  totalScenes : Nat
  totalCharacters : Nat
  totalDialogues : Nat
  scenes : List Scene
  characters : List (List Char)
  dialogues : List DialogueEntry
  interactions : List Interaction
  summary : FullSummary
deriving DecidableEq, Repr

/-- `runCompleteAnalysis` after text extraction: the empty-document guard,
the parse, and the result bundle (the report-file writes are pure output and
are omitted). -/
def runCompleteAnalysis (text scriptName : String) (analysisTimestamp : String)
    (processingTime : Rat) : Except (List Char) AnalysisResult :=
  if text.data = [] then .error "No text could be extracted from the PDF".data
  else
    let r := parseScreenplay text
    .ok { totalScenes := r.scenes.length
          totalCharacters := r.movieCharacters.length
          totalDialogues := r.dialogues.length
          scenes := r.scenes
          characters := r.movieCharacters
          dialogues := r.dialogues
          interactions := r.interactions
          summary :=
            { toSummary := generateSummary scriptName.data r analysisTimestamp.data
              processingTimeMs := jsRound processingTime
              averageSceneLength :=
                if 0 < r.scenes.length then
                  jsRound (((r.scenes.foldl (fun sum sc => sum + sc.Contents.length) 0 : Nat) : Rat)
                    / (r.scenes.length : Rat))
                else 0 } }

/-- Erase the two real-time-derived fields of a result. -/
def scrubTime (x : Except (List Char) AnalysisResult) : Except (List Char) AnalysisResult :=
  match x with
  | .error e => .error e
  | .ok a =>
    .ok { a with summary := { a.summary with analysisTimestamp := [], processingTimeMs := 0 } }

/-! ## Spec-side definition of the extracted location (for the refinement
claim about `extractLocation`) -/

/-- Does the line start with an ASCII digit? -/
def startsWithDigit : List Char → Bool
  | [] => false
  | c :: _ => isDigitC c

/-- Text up to the first dash/en-dash separator (or all of it). -/
def takeUntilSep : List Char → List Char
  | [] => []
  | c :: rest => if sepAt (c :: rest) then [] else c :: takeUntilSep rest

/-- Spec definition, following the spec's words: the location of a
Scene-Heading is the text after the `INT./EXT./INTERIOR/EXTERIOR` slug
(which may be preceded by an optional leading scene number) up to a
dash/en-dash separator or the end of the line, trimmed. -/
def locSpec (line : List Char) : List Char :=
  let l1 :=
    if startsWithDigit line then (line.dropWhile isDigitC).dropWhile jsWs else line
  match stripSlugCI l1 with
  | none => []
  | some rest => jsTrim (takeUntilSep (rest.dropWhile jsWs))

/-- The non-backtracking form of the lazy location capture, used to relate
`extractLocation` to `locSpec` on terminator-free input. -/
def lazyTake : List Char → List Char
  | [] => []
  | c :: rest => if rest.isEmpty || sepAt rest then [c] else c :: lazyTake rest

/-! ## Invariant predicates -/

/-- The number of scenes the run will have emitted once the input ends, as a
function of the current state. -/
def potential (s : PState) : Nat :=
  s.sceneNumber + (match s.currentScene with | some _ => 1 | none => 0)

/-- Invariant maintained by every iteration of the line loop. -/
structure Inv (s : PState) : Prop where
  len_eq : s.sceneNumber = s.scenes.length
  nums : s.scenes.map (·.sceneNumber) = List.range' 1 s.sceneNumber
  none_zero : s.currentScene = none → s.sceneNumber = 0
  dlg_bounds : ∀ d ∈ s.dialogues,
    1 ≤ d.sceneNumber ∧ d.sceneNumber ≤ max 1 (potential s)
  cur_chars : ∀ c ∈ s.currentSceneCharacters, c ∈ s.characters
  dlg_chars : ∀ d ∈ s.dialogues, d.characters ∈ s.characters
  scn_chars : ∀ sc ∈ s.scenes, ∀ cl, sc.Scene_Characters = some cl →
    ∀ c ∈ cl, c ∈ s.characters
  char_len : ∀ c ∈ s.characters, 1 < c.length ∧ c.length < 50
  dlg_pipe : ∀ d ∈ s.dialogues, '|' ∉ d.characters
  scn_loc : ∀ sc ∈ s.scenes, sc.location = extractLocation sc.Scene_Names
  scn_heading : ∀ sc ∈ s.scenes, sceneIsHeading sc.Scene_Names = true
  cur_heading : ∀ cur, s.currentScene = some cur → sceneIsHeading cur = true

/-- Equality of unordered pairs of names. -/
def unordEq (p q : List Char × List Char) : Prop :=
  (p.1 = q.1 ∧ p.2 = q.2) ∨ (p.1 = q.2 ∧ p.2 = q.1)

/-- Invariant of the interaction `Map` between scene groups: `P` is the list
of scene numbers already processed. -/
structure IMapInv (P : List Nat) (m : List (List Char × Interaction)) : Prop where
  keys_nodup : (m.map (·.1)).Nodup
  key_eq : ∀ e ∈ m, e.1 = interKey e.2.character1 e.2.character2
  char_ne : ∀ e ∈ m, e.2.character1 ≠ e.2.character2
  pipes : ∀ e ∈ m, '|' ∉ e.2.character1 ∧ '|' ∉ e.2.character2
  scn_nodup : ∀ e ∈ m, e.2.scenes.Nodup
  scn_sub : ∀ e ∈ m, ∀ x ∈ e.2.scenes, x ∈ P
  cnt : ∀ e ∈ m, e.2.interactionCount = e.2.scenes.length

/-- Invariant inside the pair loop of one scene group with fresh scene
number `g`; `ks` is the list of keys of the pairs still to process. -/
structure IMapInvG (P : List Nat) (g : Nat) (ks : List (List Char))
    (m : List (List Char × Interaction)) : Prop where
  keys_nodup : (m.map (·.1)).Nodup
  key_eq : ∀ e ∈ m, e.1 = interKey e.2.character1 e.2.character2
  char_ne : ∀ e ∈ m, e.2.character1 ≠ e.2.character2
  pipes : ∀ e ∈ m, '|' ∉ e.2.character1 ∧ '|' ∉ e.2.character2
  scn_nodup : ∀ e ∈ m, e.2.scenes.Nodup
  scn_sub : ∀ e ∈ m, ∀ x ∈ e.2.scenes, x ∈ P ++ [g]
  cnt : ∀ e ∈ m, e.2.interactionCount = e.2.scenes.length
  fresh : ∀ e ∈ m, e.1 ∈ ks → g ∉ e.2.scenes

/-! ## Basic lemmas about the string utilities -/

theorem mem_addToSet {l : List (List Char)} {n a : List Char} :
    a ∈ addToSet l n ↔ a ∈ l ∨ a = n := by
  unfold addToSet
  split
  · rename_i h
    constructor
    · exact .inl
    · rintro (h1 | rfl)
      · exact h1
      · exact h
  · simp

theorem addToSet_nodup {l : List (List Char)} {n : List Char} (h : l.Nodup) :
    (addToSet l n).Nodup := by
  unfold addToSet
  split
  · exact h
  · simpa [List.nodup_append] using ⟨h, by assumption⟩

theorem mem_insertLex {a b : List Char} {l : List (List Char)} :
    a ∈ insertLex b l ↔ a = b ∨ a ∈ l := by
  induction l with
  | nil => simp [insertLex]
  | cons c cs ih =>
    unfold insertLex
    split
    · simp
    · rw [List.mem_cons, ih, List.mem_cons]
      tauto

theorem mem_sortLex {a : List Char} {l : List (List Char)} :
    a ∈ sortLex l ↔ a ∈ l := by
  induction l with
  | nil => simp [sortLex]
  | cons c cs ih => simp [sortLex, mem_insertLex, ih]

theorem dropWhile_head_false {p : Char → Bool} {l rest : List Char} {c : Char}
    (h : l.dropWhile p = c :: rest) : p c = false := by
  induction l with
  | nil => simp [List.dropWhile] at h
  | cons x xs ih =>
    rw [List.dropWhile_cons] at h
    split at h
    · exact ih h
    · rename_i hx
      cases h
      simpa using hx

theorem trimRight_cons (c : Char) (l : List Char) :
    trimRight (c :: l) =
      (match trimRight l with
       | [] => if jsWs c then [] else [c]
       | r => c :: r) := rfl

theorem trimRight_sublist : ∀ l : List Char, List.Sublist (trimRight l) l := by
  intro l
  induction l with
  | nil => simp [trimRight]
  | cons c cs ih =>
    rw [trimRight_cons]
    cases hshape : trimRight cs with
    | nil =>
      by_cases hc : jsWs c
      · simpa [hc] using List.nil_sublist (c :: cs)
      · simpa [hc] using List.Sublist.cons₂ c (List.nil_sublist cs)
    | cons x xs =>
      rw [hshape] at ih
      exact List.Sublist.cons₂ c ih

theorem mem_of_mem_trimRight {a : Char} {l : List Char} (h : a ∈ trimRight l) : a ∈ l :=
  (trimRight_sublist l).mem h

theorem mem_of_mem_jsTrim {a : Char} {l : List Char} (h : a ∈ jsTrim l) : a ∈ l :=
  (List.dropWhile_sublist jsWs).mem ((trimRight_sublist _).mem h)

theorem jsTrim_length_le (l : List Char) : (jsTrim l).length ≤ l.length :=
  Nat.le_trans (trimRight_sublist _).length_le (List.dropWhile_sublist jsWs).length_le

theorem trimRight_cons_shape (c : Char) (l : List Char) :
    trimRight (c :: l) = [] ∨ ∃ r, trimRight (c :: l) = c :: r := by
  rw [trimRight_cons]
  cases trimRight l with
  | nil =>
    by_cases hc : jsWs c <;> simp [hc]
  | cons x xs => exact .inr ⟨x :: xs, rfl⟩

theorem trimRight_idem : ∀ l : List Char, trimRight (trimRight l) = trimRight l := by
  intro l
  induction l with
  | nil => rfl
  | cons c cs ih =>
    rw [trimRight_cons]
    cases hshape : trimRight cs with
    | nil =>
      show trimRight (if jsWs c then [] else [c]) = if jsWs c then [] else [c]
      by_cases hc : jsWs c
      · rw [if_pos hc]
        rfl
      · rw [if_neg hc]
        show (if jsWs c then [] else [c]) = [c]
        exact if_neg hc
    | cons x xs =>
      rw [hshape] at ih
      show trimRight (c :: x :: xs) = c :: x :: xs
      rw [trimRight_cons, ih]

theorem jsTrim_idem (l : List Char) : jsTrim (jsTrim l) = jsTrim l := by
  unfold jsTrim
  have hdrop : (trimRight (l.dropWhile jsWs)).dropWhile jsWs
      = trimRight (l.dropWhile jsWs) := by
    cases hu : l.dropWhile jsWs with
    | nil => rfl
    | cons c cs =>
      have hc : jsWs c = false := dropWhile_head_false hu
      rcases trimRight_cons_shape c cs with h | ⟨r, h⟩
      · rw [h]; rfl
      · rw [h, List.dropWhile_cons, hc]
        simp
  rw [hdrop, trimRight_idem]

theorem mem_collapseWsGo {a : Char} {b : Bool} {l : List Char}
    (h : a ∈ collapseWsGo b l) : a ∈ l ∨ a = ' ' := by
  induction l generalizing b with
  | nil => simp [collapseWsGo] at h
  | cons c cs ih =>
    unfold collapseWsGo at h
    revert h
    split
    · split <;> intro h
      · rcases ih h with h1 | h1 <;> simp [h1]
      · rcases List.mem_cons.1 h with h1 | h1
        · exact .inr h1
        · rcases ih h1 with h2 | h2 <;> simp [h2]
    · intro h
      rcases List.mem_cons.1 h with h1 | h1
      · simp [h1]
      · rcases ih h1 with h2 | h2 <;> simp [h2]

theorem mem_collapseWs {a : Char} {l : List Char} (h : a ∈ collapseWs l) :
    a ∈ l ∨ a = ' ' := mem_collapseWsGo h

theorem replaceParen_cons (c : Char) (rest : List Char) :
    replaceParen (c :: rest) =
      (matchParenAt (c :: rest)).elim (c :: replaceParen rest)
        (fun n => (c :: rest).drop n) := rfl

theorem replaceParen_sub {a : Char} : ∀ {l : List Char}, a ∈ replaceParen l → a ∈ l := by
  intro l
  induction l with
  | nil => intro h; exact absurd h (by rw [show replaceParen [] = [] from rfl]; simp)
  | cons c cs ih =>
    intro h
    rw [replaceParen_cons] at h
    revert h
    cases matchParenAt (c :: cs) with
    | some n => intro h; exact List.mem_of_mem_drop (by simpa [Option.elim] using h)
    | none =>
      intro h
      rcases List.mem_cons.1 (by simpa [Option.elim] using h) with h1 | h1
      · simp [h1]
      · simp [ih h1]

theorem replaceParen_length_le : ∀ l : List Char, (replaceParen l).length ≤ l.length := by
  intro l
  induction l with
  | nil => simp [replaceParen]
  | cons c cs ih =>
    rw [replaceParen_cons]
    cases matchParenAt (c :: cs) with
    | some n => simpa [Option.elim] using List.length_drop_le _ _
    | none => simpa [Option.elim] using ih

theorem matchParenAt_none {l : List Char} (h : '(' ∉ l) : matchParenAt l = none := by
  unfold matchParenAt
  dsimp only
  split
  · rename_i rest heq
    exact absurd (List.mem_of_mem_drop (heq ▸ List.mem_cons_self '(' rest)) h
  · rfl

theorem replaceParen_no_paren : ∀ {l : List Char}, '(' ∉ l → replaceParen l = l := by
  intro l
  induction l with
  | nil => intro _; rfl
  | cons c cs ih =>
    intro h
    rw [replaceParen_cons, matchParenAt_none h]
    show c :: replaceParen cs = c :: cs
    rw [ih (fun hc => h (List.mem_cons_of_mem _ hc))]

/-! ## Lexicographic order -/

theorem cv_inj {c d : Char} (h : cv c = cv d) : c = d := by
  have := congrArg Char.ofNat h
  rwa [show cv = Char.toNat from rfl, Char.ofNat_toNat, Char.ofNat_toNat] at this

theorem lexLt_irrefl (a : List Char) : lexLt a a = false := by
  induction a with
  | nil => rfl
  | cons c cs ih => simp [lexLt, ih]

theorem lexLt_trichotomy (a b : List Char) :
    lexLt a b = true ∨ lexLt b a = true ∨ a = b := by
  induction a generalizing b with
  | nil => cases b <;> simp [lexLt]
  | cons c cs ih =>
    cases b with
    | nil => simp [lexLt]
    | cons d ds =>
      by_cases h1 : cv c < cv d
      · left; simp [lexLt, h1]
      · by_cases h2 : cv d < cv c
        · right; left; simp [lexLt, h2]
        · have hcd : c = d :=
            cv_inj (Nat.le_antisymm (Nat.le_of_not_lt h2) (Nat.le_of_not_lt h1))
          subst hcd
          rcases ih ds with h | h | h
          · left; simp [lexLt, h1, h2, h]
          · right; left; simp [lexLt, h1, h2, h]
          · right; right; simp [h]

theorem lexLt_asymm {a b : List Char} (h : lexLt a b = true) : lexLt b a = false := by
  induction a generalizing b with
  | nil => cases b <;> simp [lexLt]
  | cons c cs ih =>
    cases b with
    | nil => simp [lexLt] at h
    | cons d ds =>
      simp only [lexLt] at h ⊢
      by_cases h1 : cv c < cv d
      · simp [Nat.lt_asymm h1, h1]
      · by_cases h2 : cv d < cv c
        · simp [h1, h2] at h
        · simp only [h1, h2, if_false] at h
          simp [h1, h2, ih h]

theorem sortPair_comm (a b : List Char) : sortPair a b = sortPair b a := by
  unfold sortPair lexLe
  rcases lexLt_trichotomy a b with h | h | h
  · simp [h, lexLt_asymm h]
  · simp [h, lexLt_asymm h]
  · subst h; rfl

theorem interKey_comm (a b : List Char) : interKey a b = interKey b a := by
  unfold interKey; rw [sortPair_comm]

theorem sortPair_cases (a b : List Char) :
    sortPair a b = (a, b) ∨ sortPair a b = (b, a) := by
  unfold sortPair; split <;> simp

theorem pipeSplit {a b c d : List Char} (ha : '|' ∉ a) (hc : '|' ∉ c)
    (h : a ++ '|' :: b = c ++ '|' :: d) : a = c ∧ b = d := by
  induction a generalizing c with
  | nil =>
    cases c with
    | nil => simpa using h
    | cons x xs =>
      simp only [List.nil_append, List.cons_append, List.cons.injEq] at h
      exact absurd (h.1 ▸ List.mem_cons_self _ _) hc
  | cons x xs ih =>
    cases c with
    | nil =>
      simp only [List.nil_append, List.cons_append, List.cons.injEq] at h
      exact absurd (h.1.symm ▸ List.mem_cons_self _ _) ha
    | cons y ys =>
      simp only [List.cons_append, List.cons.injEq] at h
      obtain ⟨rfl, h2⟩ := h
      have := ih (fun hm => ha (List.mem_cons_of_mem _ hm))
        (fun hm => hc (List.mem_cons_of_mem _ hm)) h2
      exact ⟨by rw [this.1], this.2⟩

theorem interKey_inj {a b c d : List Char}
    (ha : '|' ∉ a) (hb : '|' ∉ b) (hc : '|' ∉ c) (hd : '|' ∉ d)
    (h : interKey a b = interKey c d) : unordEq (a, b) (c, d) := by
  unfold interKey at h
  have h1 : (sortPair a b).1 = (sortPair c d).1 ∧ (sortPair a b).2 = (sortPair c d).2 := by
    apply pipeSplit _ _ h
    · rcases sortPair_cases a b with hs | hs <;> simp [hs, ha, hb]
    · rcases sortPair_cases c d with hs | hs <;> simp [hs, hc, hd]
  rcases sortPair_cases a b with hs1 | hs1 <;> rcases sortPair_cases c d with hs2 | hs2 <;>
      rw [hs1, hs2] at h1
  · exact .inl h1
  · exact .inr ⟨h1.1, h1.2⟩
  · exact .inr ⟨h1.2, h1.1⟩
  · exact .inl ⟨h1.2, h1.1⟩


/-! ## Facts about character names produced by the classifier -/

theorem charCueMatch_no_pipe {t g1 g2 : List Char}
    (h : charCueMatch t = some (g1, g2)) : '|' ∉ g1 := by
  unfold charCueMatch at h
  cases t with
  | nil => simp at h
  | cons c rest =>
    by_cases hc : isAZ c
    · simp only [hc, if_true] at h
      split at h
      · split at h
        · rename_i tail heq
          simp only [Option.some.injEq, Prod.mk.injEq] at h
          intro hmem
          rw [← h.1] at hmem
          rcases List.mem_cons.1 hmem with h1 | h1
          · rw [← h1] at hc
            exact absurd hc (by decide)
          · have := List.mem_takeWhile_imp h1
            exact absurd this (by decide)
        · simp at h
      · simp at h
    · simp [hc] at h

theorem normalizeName_no_pipe {g1 : List Char} (h : '|' ∉ g1) :
    '|' ∉ normalizeName g1 := by
  intro hmem
  unfold normalizeName at hmem
  have h1 := mem_of_mem_jsTrim hmem
  rcases mem_collapseWs h1 with h2 | h2
  · exact h (mem_of_mem_jsTrim (replaceParen_sub h2))
  · exact absurd h2 (by decide)

/-! ## Preservation of the loop invariant -/

theorem potential_mono_max {p q : Nat} (h : p ≤ q) : max 1 p ≤ max 1 q := by omega

theorem inv_initState : Inv initState := by
  refine ⟨rfl, rfl, fun _ => rfl, ?_, ?_, ?_, ?_, ?_, ?_, ?_, ?_, ?_⟩ <;>
    simp [initState]

theorem addChar_scenes (s : PState) (c : List Char) : (addChar s c).scenes = s.scenes := rfl

theorem potential_addChar (s : PState) (c : List Char) :
    potential (addChar s c) = potential s := rfl

theorem inv_addChar {s : PState} (hs : Inv s) {c : List Char}
    (hlen : 1 < c.length ∧ c.length < 50) : Inv (addChar s c) := by
  refine ⟨hs.len_eq, hs.nums, hs.none_zero, ?_, ?_, ?_, ?_, ?_, hs.dlg_pipe,
    hs.scn_loc, hs.scn_heading, hs.cur_heading⟩
  · intro d hd
    rw [potential_addChar]
    exact hs.dlg_bounds d hd
  · intro x hx
    show x ∈ addToSet s.characters c
    rw [mem_addToSet]
    by_cases hxc : x = c
    · exact .inr hxc
    · left
      apply hs.cur_chars
      revert hx
      show x ∈ (if c ∈ s.currentSceneCharacters then s.currentSceneCharacters
        else s.currentSceneCharacters ++ [c]) → _
      split
      · exact id
      · intro hx
        rcases List.mem_append.1 hx with h1 | h1
        · exact h1
        · exact absurd (List.mem_singleton.1 h1) hxc
  · intro d hd
    exact mem_addToSet.2 (.inl (hs.dlg_chars d hd))
  · intro sc hsc cl hcl x hx
    exact mem_addToSet.2 (.inl (hs.scn_chars sc hsc cl hcl x hx))
  · intro x hx
    rcases mem_addToSet.1 hx with h1 | h1
    · exact hs.char_len x h1
    · exact h1 ▸ hlen

theorem closeScene_scenes (s : PState) (cur : List Char) :
    (closeScene s cur).scenes = s.scenes ++ [{
      sceneNumber := s.sceneNumber + 1,
      Scene_Names := cur,
      Scene_action := jsTrim s.currentSceneAction,
      Scene_Characters :=
        if 0 < s.currentSceneCharacters.length then some s.currentSceneCharacters else none,
      Scene_Dialogue :=
        if 0 < s.currentSceneDialogues.length then some s.currentSceneDialogues else none,
      Contents := jsTrim s.currentSceneAction ++ '\n' :: joinSpace s.currentSceneDialogues,
      location := extractLocation cur,
      timeOfDay := extractTimeOfDay cur }] := rfl

theorem closeScene_nums {s : PState} (hs : Inv s) (cur : List Char) :
    (closeScene s cur).scenes.map (·.sceneNumber)
      = List.range' 1 (s.sceneNumber + 1) := by
  rw [closeScene_scenes, List.map_append, hs.nums]
  have := @List.range'_concat 1 1 s.sceneNumber
  simp only [Nat.one_mul] at this
  rw [this]
  simp [Nat.add_comm]

theorem inv_stepHeading {s : PState} (hs : Inv s) {t : List Char}
    (hh : sceneIsHeading t = true) : Inv (stepHeading s t) := by
  unfold stepHeading
  cases hcur : s.currentScene with
  | none =>
    have hzero : s.sceneNumber = 0 := hs.none_zero hcur
    refine ⟨hs.len_eq, hs.nums, ?_, ?_, ?_, hs.dlg_chars, hs.scn_chars, hs.char_len,
      hs.dlg_pipe, hs.scn_loc, hs.scn_heading, ?_⟩
    · intro h; simp at h
    · intro d hd
      have hb := hs.dlg_bounds d hd
      refine ⟨hb.1, le_trans hb.2 (potential_mono_max ?_)⟩
      simp [potential, hcur, hzero]
    · intro c hc; simp at hc
    · intro cur h
      simp only [Option.some.injEq] at h
      exact h ▸ hh
  | some cur =>
    have hheadcur : sceneIsHeading cur = true := hs.cur_heading cur hcur
    refine ⟨?_, ?_, ?_, ?_, ?_, ?_, ?_, hs.char_len, hs.dlg_pipe, ?_, ?_, ?_⟩
    · show s.sceneNumber + 1 = ((closeScene s cur).scenes).length
      rw [closeScene_scenes]
      simp [hs.len_eq]
    · show ((closeScene s cur).scenes).map (·.sceneNumber) = List.range' 1 (s.sceneNumber + 1)
      exact closeScene_nums hs cur
    · intro h; simp at h
    · intro d hd
      have hb := hs.dlg_bounds d hd
      refine ⟨hb.1, le_trans hb.2 (potential_mono_max ?_)⟩
      simp only [potential, hcur]
      exact Nat.le_succ _
    · intro c hc; simp at hc
    · exact hs.dlg_chars
    · intro sc hsc cl hcl x hx
      rw [closeScene_scenes] at hsc
      rcases List.mem_append.1 hsc with h1 | h1
      · exact hs.scn_chars sc h1 cl hcl x hx
      · rw [List.mem_singleton.1 h1] at hcl
        simp only at hcl
        split at hcl
        · cases hcl
          exact hs.cur_chars x hx
        · cases hcl
    · intro sc hsc
      rw [closeScene_scenes] at hsc
      rcases List.mem_append.1 hsc with h1 | h1
      · exact hs.scn_loc sc h1
      · rw [List.mem_singleton.1 h1]
    · intro sc hsc
      rw [closeScene_scenes] at hsc
      rcases List.mem_append.1 hsc with h1 | h1
      · exact hs.scn_heading sc h1
      · rw [List.mem_singleton.1 h1]
        exact hheadcur
    · intro cur' h
      simp only [Option.some.injEq] at h
      exact h ▸ hh

theorem inv_stepCue {s : PState} (hs : Inv s) (i : Nat) (t : List Char) :
    Inv (stepCue i s t) := by
  unfold stepCue
  cases hm : charCueMatch t with
  | none => exact hs
  | some g =>
    obtain ⟨g1, g2⟩ := g
    dsimp only
    by_cases hcond : normalizeName g1 ≠ [] ∧ 1 < (normalizeName g1).length ∧
        (normalizeName g1).length < 50 ∧ isStop (normalizeName g1) = false
    · rw [if_pos hcond]
      have hadd : Inv (addChar s (normalizeName g1)) :=
        inv_addChar hs ⟨hcond.2.1, hcond.2.2.1⟩
      by_cases hdlg : jsTrim g2 ≠ []
      · rw [if_pos hdlg]
        set s1 := addChar s (normalizeName g1) with hs1
        refine ⟨hadd.len_eq, hadd.nums, hadd.none_zero, ?_, hadd.cur_chars, ?_, hadd.scn_chars,
          hadd.char_len, ?_, hadd.scn_loc, hadd.scn_heading, hadd.cur_heading⟩
        · intro d hd
          rcases List.mem_append.1 hd with h1 | h1
          · exact hadd.dlg_bounds d h1
          · rw [List.mem_singleton.1 h1]
            constructor
            · exact Nat.succ_le_succ (Nat.zero_le _)
            · show s.sceneNumber + 1 ≤ max 1 (potential s1)
              cases hcur : s.currentScene with
              | none =>
                have := hs.none_zero hcur
                simp [potential, hs1, addChar, hcur, this]
              | some cur =>
                simp [potential, hs1, addChar, hcur]
        · intro d hd
          rcases List.mem_append.1 hd with h1 | h1
          · exact hadd.dlg_chars d h1
          · rw [List.mem_singleton.1 h1]
            exact mem_addToSet.2 (.inr rfl)
        · intro d hd
          rcases List.mem_append.1 hd with h1 | h1
          · exact hadd.dlg_pipe d h1
          · rw [List.mem_singleton.1 h1]
            exact normalizeName_no_pipe (charCueMatch_no_pipe hm)
      · rw [if_neg hdlg]
        exact hadd
    · rw [if_neg hcond]
      exact hs

theorem inv_stepSolo {s : PState} (hs : Inv s) {t : List Char}
    (hsolo : soloCueTest t = true) (htr : jsTrim t = t) : Inv (stepSolo s t) := by
  unfold stepSolo
  have h0 := hsolo
  unfold soloCueTest at h0
  simp only [Bool.and_eq_true, decide_eq_true_eq, List.all_eq_true] at h0
  have hlen : 2 < t.length ∧ t.length < 30 := h0.2
  have hnoparen : '(' ∉ t := by
    intro hmem
    have := h0.1.2 '(' hmem
    exact absurd this (by decide)
  have hchar : replaceParen (jsTrim t) = t := by
    rw [htr, replaceParen_no_paren hnoparen]
  dsimp only
  rw [hchar]
  split
  · exact inv_addChar hs ⟨by omega, by omega⟩
  · exact hs

theorem inv_stepExt {s : PState} (hs : Inv s) {t : List Char}
    (hext : extCueTest t = true) (htr : jsTrim t = t) : Inv (stepExt s t) := by
  unfold stepExt
  have hlen : t.length < 50 := by
    have h0 := hext
    unfold extCueTest at h0
    simp only [Bool.and_eq_true, decide_eq_true_eq] at h0
    exact h0.2
  have hle : (replaceParen (jsTrim t)).length ≤ t.length := by
    rw [htr]; exact replaceParen_length_le t
  dsimp only
  split
  · rename_i hcond
    exact inv_addChar hs ⟨hcond.2, by omega⟩
  · exact hs

theorem inv_step {s : PState} (hs : Inv s) (i : Nat) (raw : List Char) :
    Inv (step i s raw) := by
  unfold step
  dsimp only
  split
  · exact hs
  · split
    · rename_i hh
      exact inv_stepHeading hs hh
    · split
      · exact inv_stepCue hs i _
      · split
        · rename_i hsolo
          exact inv_stepSolo hs hsolo (jsTrim_idem raw)
        · split
          · rename_i hext
            exact inv_stepExt hs hext (jsTrim_idem raw)
          · refine ⟨hs.len_eq, hs.nums, hs.none_zero, ?_, hs.cur_chars, hs.dlg_chars,
              hs.scn_chars, hs.char_len, hs.dlg_pipe, hs.scn_loc, hs.scn_heading,
              hs.cur_heading⟩
            intro d hd
            exact hs.dlg_bounds d hd

theorem inv_runLines : ∀ (ls : List (List Char)) (i : Nat) {s : PState}, Inv s →
    Inv (runLines i s ls) := by
  intro ls
  induction ls with
  | nil => intro i s hs; exact hs
  | cons l ls ih => intro i s hs; exact ih (i + 1) (inv_step hs i l)

theorem inv_runState (text : String) : Inv (runState text) :=
  inv_runLines _ 0 inv_initState

/-! ## Consequences for the finished run -/

theorem finalState_characters (text : String) :
    (finalState text).characters = (runState text).characters := by
  unfold finalState; split <;> rfl

theorem finalState_dialogues (text : String) :
    (finalState text).dialogues = (runState text).dialogues := by
  unfold finalState; split <;> rfl

theorem finalState_scenes_len (text : String) :
    (finalState text).scenes.length = potential (runState text) := by
  unfold finalState
  cases hcur : (runState text).currentScene with
  | none =>
    simp only [potential, hcur]
    exact ((inv_runState text).len_eq).symm
  | some cur =>
    rw [closeScene_scenes]
    simp only [potential, hcur, List.length_append, List.length_singleton]
    rw [← (inv_runState text).len_eq]

theorem final_scenes_nums (text : String) :
    (finalState text).scenes.map (·.sceneNumber)
      = List.range' 1 (finalState text).scenes.length := by
  have hinv := inv_runState text
  rw [finalState_scenes_len]
  unfold finalState
  cases hcur : (runState text).currentScene with
  | none =>
    simp only [potential, hcur]
    rw [hinv.nums]
    rfl
  | some cur =>
    simp only [potential, hcur]
    exact closeScene_nums hinv cur

theorem final_dlg_bounds (text : String) :
    ∀ d ∈ (finalState text).dialogues,
      1 ≤ d.sceneNumber ∧ d.sceneNumber ≤ max 1 (finalState text).scenes.length := by
  intro d hd
  rw [finalState_dialogues] at hd
  rw [finalState_scenes_len]
  exact (inv_runState text).dlg_bounds d hd

theorem final_mem_movie {text : String} {c : List Char}
    (hc : c ∈ (finalState text).characters) :
    c ∈ (parseScreenplay text).movieCharacters := by
  show c ∈ sortLex ((finalState text).characters.filter fun x => 1 < x.length && x.length < 50)
  rw [mem_sortLex]
  apply List.mem_filter.2
  refine ⟨hc, ?_⟩
  rw [finalState_characters] at hc
  have := (inv_runState text).char_len c hc
  simp [this.1, this.2]

theorem final_scn_chars (text : String) :
    ∀ sc ∈ (finalState text).scenes, ∀ cl, sc.Scene_Characters = some cl →
      ∀ c ∈ cl, c ∈ (runState text).characters := by
  have hinv := inv_runState text
  unfold finalState
  cases hcur : (runState text).currentScene with
  | none => exact hinv.scn_chars
  | some cur =>
    intro sc hsc cl hcl c hc
    rw [closeScene_scenes] at hsc
    rcases List.mem_append.1 hsc with h1 | h1
    · exact hinv.scn_chars sc h1 cl hcl c hc
    · rw [List.mem_singleton.1 h1] at hcl
      simp only at hcl
      split at hcl
      · cases hcl
        exact hinv.cur_chars c hc
      · cases hcl

theorem final_scn_loc (text : String) :
    ∀ sc ∈ (finalState text).scenes,
      sc.location = extractLocation sc.Scene_Names ∧
      sceneIsHeading sc.Scene_Names = true := by
  have hinv := inv_runState text
  unfold finalState
  cases hcur : (runState text).currentScene with
  | none =>
    intro sc hsc
    exact ⟨hinv.scn_loc sc hsc, hinv.scn_heading sc hsc⟩
  | some cur =>
    intro sc hsc
    rw [closeScene_scenes] at hsc
    rcases List.mem_append.1 hsc with h1 | h1
    · exact ⟨hinv.scn_loc sc h1, hinv.scn_heading sc h1⟩
    · rw [List.mem_singleton.1 h1]
      exact ⟨rfl, hinv.cur_heading cur hcur⟩

theorem final_dlg_pipe (text : String) :
    ∀ d ∈ (finalState text).dialogues, '|' ∉ d.characters := by
  intro d hd
  rw [finalState_dialogues] at hd
  exact (inv_runState text).dlg_pipe d hd

/-! ## Claim C3 -/

/-- C3: for every input text the `sceneNumber` fields of the Scene output
are exactly `1..totalScenes` in document order — strictly increasing,
contiguous, starting at 1, with no gaps or repeats (each number being
assigned by `closeScene` at the moment the scene closes, the last open scene
being closed identically at end of input). -/
theorem claim_C3_scene_numbers (text : String) :
    (parseScreenplay text).scenes.map (·.sceneNumber)
      = List.range' 1 (parseScreenplay text).scenes.length :=
  final_scenes_nums text

/-! ## Claim C1 -/

/-- C1 counterexample: on the input `"JOHN: Hi."` the Dialogue Index holds
an entry with `sceneNumber = 1` while `totalScenes = 0`, so the claimed
bound `1 ≤ sceneNumber ≤ totalScenes` fails. -/
theorem claim_C1_counterexample :
    ¬ (∀ d ∈ (parseScreenplay "JOHN: Hi.").dialogues,
        1 ≤ d.sceneNumber ∧
        d.sceneNumber ≤ (parseScreenplay "JOHN: Hi.").scenes.length) := by
  decide

/-- C1 (amended): provided at least one scene heading occurred
(`totalScenes ≥ 1`), every `DialogueEntry` satisfies
`1 ≤ sceneNumber ≤ totalScenes`; when no scene heading ever occurs,
pre-scene dialogue entries carry `sceneNumber = 1` with `totalScenes = 0`. -/
theorem claim_C1_amended (text : String)
    (h : 1 ≤ (parseScreenplay text).scenes.length) :
    ∀ d ∈ (parseScreenplay text).dialogues,
      1 ≤ d.sceneNumber ∧ d.sceneNumber ≤ (parseScreenplay text).scenes.length := by
  intro d hd
  have hb := final_dlg_bounds text d hd
  have hmax : max 1 (finalState text).scenes.length = (finalState text).scenes.length := by
    have : 1 ≤ (finalState text).scenes.length := h
    omega
  exact ⟨hb.1, show d.sceneNumber ≤ (finalState text).scenes.length from hmax ▸ hb.2⟩

/-- C1 witness: the amended claim applied to a concrete two-scene input. -/
theorem claim_C1_witness :
    1 ≤ (parseScreenplay "INT. HOUSE - DAY\nJOHN: Hello there.\nEXT. STREET - NIGHT\nMARY: Hi John.").scenes.length ∧
    (∀ d ∈ (parseScreenplay "INT. HOUSE - DAY\nJOHN: Hello there.\nEXT. STREET - NIGHT\nMARY: Hi John.").dialogues,
      1 ≤ d.sceneNumber ∧
      d.sceneNumber ≤ (parseScreenplay "INT. HOUSE - DAY\nJOHN: Hello there.\nEXT. STREET - NIGHT\nMARY: Hi John.").scenes.length) :=
  ⟨by decide, claim_C1_amended _ (by decide)⟩

/-! ## Claim C10 -/

/-- C10: referential integrity of the character registry output — every name
in any scene's character list and the `characters` field of every
`DialogueEntry` is a member of the final sorted character output. -/
theorem claim_C10_registry_integrity (text : String) :
    (∀ sc ∈ (parseScreenplay text).scenes, ∀ cl, sc.Scene_Characters = some cl →
       ∀ c ∈ cl, c ∈ (parseScreenplay text).movieCharacters) ∧
    (∀ d ∈ (parseScreenplay text).dialogues,
       d.characters ∈ (parseScreenplay text).movieCharacters) := by
  constructor
  · intro sc hsc cl hcl c hc
    have := final_scn_chars text sc hsc cl hcl c hc
    exact final_mem_movie (by rw [finalState_characters]; exact this)
  · intro d hd
    have hmem : d.characters ∈ (runState text).characters :=
      (inv_runState text).dlg_chars d (by rw [← finalState_dialogues]; exact hd)
    exact final_mem_movie (by rw [finalState_characters]; exact hmem)

/-- C10 witness: the theorem applied to a concrete dialogue entry. -/
theorem claim_C10_witness :
    "JOHN".data ∈ (parseScreenplay "INT. HOUSE - DAY\nJOHN: Hello there.\nEXT. STREET - NIGHT\nMARY: Hi John.").movieCharacters :=
  (claim_C10_registry_integrity
      "INT. HOUSE - DAY\nJOHN: Hello there.\nEXT. STREET - NIGHT\nMARY: Hi John.").2
    { sceneNumber := 1, characters := "JOHN".data,
      Character_dialogue := "Hello there.".data, lineNumber := 2 } (by decide)

/-! ## Claim C7 -/

/-- C7 (Scenario A): the four-line input yields exactly 2 scenes
(`HOUSE`/DAY then `STREET`/NIGHT), character set `{JOHN, MARY}` (sorted), 2
dialogue entries, and no interactions. -/
theorem claim_C7_scenario_A :
    (parseScreenplay "INT. HOUSE - DAY\nJOHN: Hello there.\nEXT. STREET - NIGHT\nMARY: Hi John.").scenes.map
        (fun sc => (sc.location, sc.timeOfDay)) =
      [("HOUSE".data, "DAY".data), ("STREET".data, "NIGHT".data)] ∧
    (parseScreenplay "INT. HOUSE - DAY\nJOHN: Hello there.\nEXT. STREET - NIGHT\nMARY: Hi John.").movieCharacters =
      ["JOHN".data, "MARY".data] ∧
    (parseScreenplay "INT. HOUSE - DAY\nJOHN: Hello there.\nEXT. STREET - NIGHT\nMARY: Hi John.").dialogues.length = 2 ∧
    (parseScreenplay "INT. HOUSE - DAY\nJOHN: Hello there.\nEXT. STREET - NIGHT\nMARY: Hi John.").interactions = [] := by
  decide

/-! ## Claim C8 -/

/-- C8: processing the single line `"FADE IN:"` registers neither a
character named `FADE` nor one named `IN` (neither in the raw registry set
nor in the sorted output). -/
theorem claim_C8_fade_in :
    "FADE".data ∉ (parseScreenplay "FADE IN:").characters ∧
    "IN".data ∉ (parseScreenplay "FADE IN:").characters ∧
    "FADE".data ∉ (parseScreenplay "FADE IN:").movieCharacters ∧
    "IN".data ∉ (parseScreenplay "FADE IN:").movieCharacters := by
  decide

/-! ## Claim C2 -/

/-- C2 counterexample: the cue line `"JOHN: Hi."` on line 1, read before the
scene heading on line 2 has opened any scene, contributes an entry to the
Dialogue Index (with `sceneNumber = 1`) — it is not dropped. -/
theorem claim_C2_counterexample :
    (parseScreenplay "JOHN: Hi.\nINT. HOUSE - DAY").dialogues =
      [{ sceneNumber := 1, characters := "JOHN".data,
         Character_dialogue := "Hi.".data, lineNumber := 1 }] := by
  decide

/-- C2 (amended): a valid Character-Cue-With-Dialogue line processed while
no scene heading has yet opened a scene (`currentScene = none`,
`sceneNumber = 0`) appends an entry to the Dialogue Index with
`sceneNumber = 1` (the number the first scene will receive if one ever
opens); only the scene-level `dialogueLines` content is later discarded. -/
theorem claim_C2_amended (s : PState) (i : Nat) (raw g1 g2 : List Char)
    (hcur : s.currentScene = none)
    (hnum : s.sceneNumber = 0)
    (ht : jsTrim raw ≠ [])
    (hhead : sceneIsHeading (jsTrim raw) = false)
    (hguard : ((jsTrim raw).contains ':' && decide ((jsTrim raw).length < 200)) = true)
    (hmatch : charCueMatch (jsTrim raw) = some (g1, g2))
    (hname : normalizeName g1 ≠ [] ∧ 1 < (normalizeName g1).length ∧
      (normalizeName g1).length < 50 ∧ isStop (normalizeName g1) = false)
    (hdlg : jsTrim g2 ≠ []) :
    (step i s raw).dialogues = s.dialogues ++
      [{ sceneNumber := 1, characters := normalizeName g1,
         Character_dialogue := jsTrim g2, lineNumber := i + 1 }] := by
  unfold step
  dsimp only
  rw [if_neg ht, if_neg (by simp [hhead]), if_pos hguard]
  unfold stepCue
  rw [hmatch]
  dsimp only
  rw [if_pos hname, if_pos hdlg]
  show (addChar s (normalizeName g1)).dialogues ++ [_] = s.dialogues ++ [_]
  rw [show (addChar s (normalizeName g1)).dialogues = s.dialogues from rfl, hnum]

/-- C2 witness: the amended claim applied to the initial state and the
concrete line `"JOHN: Hi."`. -/
theorem claim_C2_witness :
    (step 0 initState "JOHN: Hi.".data).dialogues =
      initState.dialogues ++
        [{ sceneNumber := 1, characters := normalizeName "JOHN".data,
           Character_dialogue := jsTrim "Hi.".data, lineNumber := 1 }] :=
  claim_C2_amended initState 0 "JOHN: Hi.".data "JOHN".data "Hi.".data rfl rfl
    (by decide) (by decide) (by decide) (by decide) (by decide) (by decide)

/-! ## Claim C9 -/

/-- C9 counterexample: two runs on the same text and name but with the
real-time inputs of two different instants produce different
`AnalysisResult` bundles (the summary's `analysisTimestamp` differs). -/
theorem claim_C9_counterexample :
    runCompleteAnalysis "INT. HOUSE - DAY\nJOHN: Hello there." "x"
        "2024-01-01T00:00:00.000Z" 5 ≠
      runCompleteAnalysis "INT. HOUSE - DAY\nJOHN: Hello there." "x"
        "2024-01-01T00:00:00.001Z" 5 := by
  intro h
  have h2 := congrArg (fun r =>
    match r with
    | Except.ok a => a.summary.analysisTimestamp
    | Except.error _ => ([] : List Char)) h
  exact absurd h2 (by decide)

/-- C9 (amended): apart from the real-time-derived fields
`analysisTimestamp` and `processingTimeMs`, the result bundle — scenes,
characters, dialogues, interactions and every remaining summary field — is
a pure deterministic function of the input text and script name. -/
theorem claim_C9_amended (text name ts1 ts2 : String) (pt1 pt2 : Rat) :
    scrubTime (runCompleteAnalysis text name ts1 pt1)
      = scrubTime (runCompleteAnalysis text name ts2 pt2) := by
  unfold runCompleteAnalysis
  by_cases hc : text.data = []
  · rw [if_pos hc, if_pos hc]
  · rw [if_neg hc, if_neg hc]
    rfl

/-! ## Lemmas about the interaction graph builder -/

theorem groupAdd_keys (gs : List (Nat × List DialogueEntry)) (d : DialogueEntry) :
    (groupAdd gs d).map (·.1) =
      if d.sceneNumber ∈ gs.map (·.1) then gs.map (·.1)
      else gs.map (·.1) ++ [d.sceneNumber] := by
  induction gs with
  | nil => simp [groupAdd]
  | cons e rest ih =>
    obtain ⟨k, ds⟩ := e
    unfold groupAdd
    by_cases hk : k = d.sceneNumber
    · subst hk
      simp
    · rw [if_neg hk]
      simp only [List.map_cons, ih]
      by_cases hmem : d.sceneNumber ∈ rest.map (·.1)
      · rw [if_pos hmem, if_pos (List.mem_cons_of_mem _ hmem)]
      · rw [if_neg hmem, if_neg ?_]
        · simp
        · intro h
          rcases List.mem_cons.1 h with h1 | h1
          · exact hk h1.symm
          · exact hmem h1

theorem nodup_snoc {α : Type} {l : List α} {a : α} (h : l.Nodup) (ha : a ∉ l) :
    (l ++ [a]).Nodup := by
  simp [List.nodup_append, h, ha]

theorem groupAdd_keys_nodup {gs : List (Nat × List DialogueEntry)} {d : DialogueEntry}
    (h : (gs.map (·.1)).Nodup) : ((groupAdd gs d).map (·.1)).Nodup := by
  rw [groupAdd_keys]
  split
  · exact h
  · exact nodup_snoc h (by assumption)

theorem groupAdd_pred {P : DialogueEntry → Prop} {gs : List (Nat × List DialogueEntry)}
    {d : DialogueEntry} (hgs : ∀ e ∈ gs, ∀ x ∈ e.2, P x) (hd : P d) :
    ∀ e ∈ groupAdd gs d, ∀ x ∈ e.2, P x := by
  induction gs with
  | nil =>
    intro e he x hx
    simp only [groupAdd, List.mem_singleton] at he
    rw [he] at hx
    simp only [List.mem_singleton] at hx
    exact hx ▸ hd
  | cons e0 rest ih =>
    obtain ⟨k, ds⟩ := e0
    unfold groupAdd
    split
    · intro e he x hx
      rcases List.mem_cons.1 he with h1 | h1
      · rw [h1] at hx
        rcases List.mem_append.1 hx with h2 | h2
        · exact hgs (k, ds) (List.mem_cons_self _ _) x h2
        · exact (List.mem_singleton.1 h2) ▸ hd
      · exact hgs e (List.mem_cons_of_mem _ h1) x hx
    · intro e he x hx
      rcases List.mem_cons.1 he with h1 | h1
      · exact hgs e (h1 ▸ List.mem_cons_self _ _) x hx
      · exact ih (fun e' he' => hgs e' (List.mem_cons_of_mem _ he')) e h1 x hx

theorem foldl_groupAdd_keys_nodup :
    ∀ (l : List DialogueEntry) (gs : List (Nat × List DialogueEntry)),
      (gs.map (·.1)).Nodup → ((l.foldl groupAdd gs).map (·.1)).Nodup := by
  intro l
  induction l with
  | nil => intro gs h; exact h
  | cons d ds ih => intro gs h; exact ih _ (groupAdd_keys_nodup h)

theorem groupDialogues_keys_nodup (l : List DialogueEntry) :
    ((groupDialogues l).map (·.1)).Nodup :=
  foldl_groupAdd_keys_nodup l [] (by simp)

theorem foldl_groupAdd_pred {P : DialogueEntry → Prop} :
    ∀ (l : List DialogueEntry) (gs : List (Nat × List DialogueEntry)),
      (∀ e ∈ gs, ∀ x ∈ e.2, P x) → (∀ x ∈ l, P x) →
      ∀ e ∈ l.foldl groupAdd gs, ∀ x ∈ e.2, P x := by
  intro l
  induction l with
  | nil => intro gs hgs _ e he; exact hgs e he
  | cons d ds ih =>
    intro gs hgs hl e he
    exact ih _ (groupAdd_pred hgs (hl d (List.mem_cons_self _ _)))
      (fun x hx => hl x (List.mem_cons_of_mem _ hx)) e he

theorem groupDialogues_pred {P : DialogueEntry → Prop} {l : List DialogueEntry}
    (hl : ∀ x ∈ l, P x) : ∀ e ∈ groupDialogues l, ∀ x ∈ e.2, P x :=
  foldl_groupAdd_pred l [] (by simp) hl

theorem foldl_addToSet_nodup :
    ∀ (l : List (List Char)) (acc : List (List Char)), acc.Nodup →
      (l.foldl addToSet acc).Nodup := by
  intro l
  induction l with
  | nil => intro acc h; exact h
  | cons x xs ih => intro acc h; exact ih _ (addToSet_nodup h)

theorem dedupFirst_nodup (l : List (List Char)) : (dedupFirst l).Nodup :=
  foldl_addToSet_nodup l [] (by simp)

theorem foldl_addToSet_pred {P : List Char → Prop} :
    ∀ (l : List (List Char)) (acc : List (List Char)),
      (∀ x ∈ acc, P x) → (∀ x ∈ l, P x) → ∀ x ∈ l.foldl addToSet acc, P x := by
  intro l
  induction l with
  | nil => intro acc hacc _ x hx; exact hacc x hx
  | cons y ys ih =>
    intro acc hacc hl x hx
    refine ih _ ?_ (fun z hz => hl z (List.mem_cons_of_mem _ hz)) x hx
    intro z hz
    rcases mem_addToSet.1 hz with h1 | h1
    · exact hacc z h1
    · exact h1 ▸ hl y (List.mem_cons_self _ _)

theorem dedupFirst_pred {P : List Char → Prop} {l : List (List Char)}
    (hl : ∀ x ∈ l, P x) : ∀ x ∈ dedupFirst l, P x :=
  foldl_addToSet_pred l [] (by simp) hl

theorem mem_allPairs {a b : List Char} :
    ∀ {l : List (List Char)}, (a, b) ∈ allPairs l → a ∈ l ∧ b ∈ l := by
  intro l
  induction l with
  | nil => intro h; simp [allPairs] at h
  | cons c cs ih =>
    intro h
    unfold allPairs at h
    rcases List.mem_append.1 h with h1 | h1
    · rcases List.mem_map.1 h1 with ⟨x, hx, hx2⟩
      obtain ⟨rfl, rfl⟩ := Prod.mk.injEq .. ▸ hx2
      exact ⟨List.mem_cons_self _ _, List.mem_cons_of_mem _ hx⟩
    · have := ih h1
      exact ⟨List.mem_cons_of_mem _ this.1, List.mem_cons_of_mem _ this.2⟩

theorem allPairs_ne : ∀ {l : List (List Char)}, l.Nodup →
    ∀ p ∈ allPairs l, p.1 ≠ p.2 := by
  intro l
  induction l with
  | nil => intro _ p hp; simp [allPairs] at hp
  | cons c cs ih =>
    intro hnd p hp
    unfold allPairs at hp
    rcases List.mem_append.1 hp with h1 | h1
    · rcases List.mem_map.1 h1 with ⟨x, hx, hx2⟩
      rw [← hx2]
      show c ≠ x
      intro hceq
      exact (List.nodup_cons.1 hnd).1 (by rw [hceq]; exact hx)
    · exact ih (List.nodup_cons.1 hnd).2 p h1

theorem allPairs_unord_pairwise : ∀ {l : List (List Char)}, l.Nodup →
    (allPairs l).Pairwise (fun p q => ¬ unordEq p q) := by
  intro l
  induction l with
  | nil => simp [allPairs]
  | cons c cs ih =>
    intro hnd
    have hc : c ∉ cs := (List.nodup_cons.1 hnd).1
    have hcs : cs.Nodup := (List.nodup_cons.1 hnd).2
    unfold allPairs
    rw [List.pairwise_append]
    refine ⟨?_, ih hcs, ?_⟩
    · rw [List.pairwise_map]
      have hne : cs.Pairwise (fun a b => a ≠ b) := hcs
      refine List.Pairwise.imp_of_mem ?_ hne
      intro a b ha hb hab hu
      simp only [unordEq] at hu
      rcases hu with ⟨_, h2⟩ | ⟨h1, _⟩
      · exact hab h2
      · exact hc (h1 ▸ hb)
    · intro p hp q hq hu
      rcases List.mem_map.1 hp with ⟨x, hx, hx2⟩
      obtain ⟨q1, q2⟩ := q
      have hqm := mem_allPairs hq
      rw [← hx2] at hu
      simp only [unordEq] at hu
      rcases hu with ⟨h1, _⟩ | ⟨h1, _⟩
      · exact hc (h1 ▸ hqm.1)
      · exact hc (h1 ▸ hqm.2)

theorem interKey_unord {a b c d : List Char} (h : unordEq (a, b) (c, d)) :
    interKey a b = interKey c d := by
  rcases h with ⟨h1, h2⟩ | ⟨h1, h2⟩
  · have ha : a = c := h1
    have hb : b = d := h2
    rw [ha, hb]
  · have ha : a = d := h1
    have hb : b = c := h2
    rw [ha, hb, interKey_comm]

theorem pairKeys_nodup {l : List (List Char)} (hnd : l.Nodup)
    (hpipe : ∀ x ∈ l, '|' ∉ x) :
    ((allPairs l).map (fun p => interKey p.1 p.2)).Nodup := by
  refine (List.pairwise_map).2 ?_
  refine List.Pairwise.imp_of_mem ?_ (allPairs_unord_pairwise hnd)
  intro p q hp hq hpq hkey
  obtain ⟨p1, p2⟩ := p
  obtain ⟨q1, q2⟩ := q
  have hpm := mem_allPairs hp
  have hqm := mem_allPairs hq
  exact hpq (interKey_inj (hpipe p1 hpm.1) (hpipe p2 hpm.2)
    (hpipe q1 hqm.1) (hpipe q2 hqm.2) hkey)

theorem interUpd_keys (sn : Nat) (c1 c2 : List Char) :
    ∀ m : List (List Char × Interaction),
      (interUpd sn c1 c2 m).map (·.1) =
        if interKey c1 c2 ∈ m.map (·.1) then m.map (·.1)
        else m.map (·.1) ++ [interKey c1 c2] := by
  intro m
  induction m with
  | nil => simp [interUpd]
  | cons e rest ih =>
    obtain ⟨k, r⟩ := e
    unfold interUpd
    by_cases hk : k = interKey c1 c2
    · subst hk
      simp
    · rw [if_neg hk]
      simp only [List.map_cons, ih]
      by_cases hmem : interKey c1 c2 ∈ rest.map (·.1)
      · rw [if_pos hmem, if_pos (List.mem_cons_of_mem _ hmem)]
      · rw [if_neg hmem, if_neg ?_]
        · simp
        · intro h
          rcases List.mem_cons.1 h with h1 | h1
          · exact hk h1.symm
          · exact hmem h1

theorem interUpd_mem {sn : Nat} {c1 c2 : List Char} :
    ∀ {m : List (List Char × Interaction)}, (m.map (·.1)).Nodup →
      ∀ e ∈ interUpd sn c1 c2 m,
        (e ∈ m ∧ e.1 ≠ interKey c1 c2) ∨
        (∃ r, (interKey c1 c2, r) ∈ m ∧
          e = (interKey c1 c2,
            { r with scenes := r.scenes ++ [sn],
                     interactionCount := r.interactionCount + 1 })) ∨
        (interKey c1 c2 ∉ m.map (·.1) ∧
          e = (interKey c1 c2,
            { character1 := c1, character2 := c2, scenes := [sn], interactionCount := 1 })) := by
  intro m
  induction m with
  | nil =>
    intro _ e he
    simp only [interUpd, List.mem_singleton] at he
    exact .inr (.inr ⟨by simp, he⟩)
  | cons e0 rest ih =>
    intro hnd e he
    obtain ⟨k, r⟩ := e0
    unfold interUpd at he
    by_cases hk : k = interKey c1 c2
    · subst hk
      rw [if_pos rfl] at he
      rcases List.mem_cons.1 he with h1 | h1
      · exact .inr (.inl ⟨r, List.mem_cons_self _ _, h1⟩)
      · left
        refine ⟨List.mem_cons_of_mem _ h1, ?_⟩
        intro hkey
        have : interKey c1 c2 ∈ rest.map (·.1) := by
          rw [← hkey]
          exact List.mem_map.2 ⟨e, h1, rfl⟩
        exact (List.nodup_cons.1 (by simpa using hnd)).1 this
    · rw [if_neg hk] at he
      rcases List.mem_cons.1 he with h1 | h1
      · left
        exact ⟨h1 ▸ List.mem_cons_self _ _, by rw [h1]; exact hk⟩
      · have hnd' : (rest.map (·.1)).Nodup := (List.nodup_cons.1 (by simpa using hnd)).2
        rcases ih hnd' e h1 with ⟨hm, hne⟩ | ⟨r', hr', heq⟩ | ⟨hmem, heq⟩
        · exact .inl ⟨List.mem_cons_of_mem _ hm, hne⟩
        · exact .inr (.inl ⟨r', List.mem_cons_of_mem _ hr', heq⟩)
        · refine .inr (.inr ⟨?_, heq⟩)
          intro hmem2
          rw [List.map_cons] at hmem2
          rcases List.mem_cons.1 hmem2 with h2 | h2
          · exact hk h2.symm
          · exact hmem h2

theorem interUpd_stepG {P : List Nat} {g : Nat} {ks : List (List Char)}
    {m : List (List Char × Interaction)} {c1 c2 : List Char}
    (hm : IMapInvG P g (interKey c1 c2 :: ks) m)
    (hκ : interKey c1 c2 ∉ ks) (hne : c1 ≠ c2) (hp1 : '|' ∉ c1) (hp2 : '|' ∉ c2) :
    IMapInvG P g ks (interUpd g c1 c2 m) := by
  have hcase := @interUpd_mem g c1 c2 m hm.keys_nodup
  refine ⟨?_, ?_, ?_, ?_, ?_, ?_, ?_, ?_⟩
  · rw [interUpd_keys]
    split
    · exact hm.keys_nodup
    · exact nodup_snoc hm.keys_nodup (by assumption)
  · intro e he
    rcases hcase e he with ⟨hmem, _⟩ | ⟨r, hr, heq⟩ | ⟨_, heq⟩
    · exact hm.key_eq e hmem
    · rw [heq]
      exact hm.key_eq (interKey c1 c2, r) hr
    · rw [heq]
  · intro e he
    rcases hcase e he with ⟨hmem, _⟩ | ⟨r, hr, heq⟩ | ⟨_, heq⟩
    · exact hm.char_ne e hmem
    · rw [heq]
      exact hm.char_ne (interKey c1 c2, r) hr
    · rw [heq]
      exact hne
  · intro e he
    rcases hcase e he with ⟨hmem, _⟩ | ⟨r, hr, heq⟩ | ⟨_, heq⟩
    · exact hm.pipes e hmem
    · rw [heq]
      exact hm.pipes (interKey c1 c2, r) hr
    · rw [heq]
      exact ⟨hp1, hp2⟩
  · intro e he
    rcases hcase e he with ⟨hmem, _⟩ | ⟨r, hr, heq⟩ | ⟨_, heq⟩
    · exact hm.scn_nodup e hmem
    · rw [heq]
      exact nodup_snoc (hm.scn_nodup (interKey c1 c2, r) hr)
        (hm.fresh (interKey c1 c2, r) hr (List.mem_cons_self _ _))
    · rw [heq]
      simp
  · intro e he
    rcases hcase e he with ⟨hmem, _⟩ | ⟨r, hr, heq⟩ | ⟨_, heq⟩
    · exact hm.scn_sub e hmem
    · rw [heq]
      intro x hx
      rcases List.mem_append.1 hx with h1 | h1
      · exact hm.scn_sub (interKey c1 c2, r) hr x h1
      · rw [List.mem_singleton.1 h1]
        exact List.mem_append.2 (.inr (List.mem_singleton.2 rfl))
    · rw [heq]
      intro x hx
      rw [List.mem_singleton.1 hx]
      exact List.mem_append.2 (.inr (List.mem_singleton.2 rfl))
  · intro e he
    rcases hcase e he with ⟨hmem, _⟩ | ⟨r, hr, heq⟩ | ⟨_, heq⟩
    · exact hm.cnt e hmem
    · rw [heq]
      show r.interactionCount + 1 = (r.scenes ++ [g]).length
      rw [hm.cnt (interKey c1 c2, r) hr]
      simp
    · rw [heq]
      rfl
  · intro e he hks
    rcases hcase e he with ⟨hmem, _⟩ | ⟨r, hr, heq⟩ | ⟨_, heq⟩
    · exact hm.fresh e hmem (List.mem_cons_of_mem _ hks)
    · rw [heq] at hks
      exact absurd hks hκ
    · rw [heq] at hks
      exact absurd hks hκ

theorem foldl_interUpd_invG {P : List Nat} {g : Nat} :
    ∀ (ps : List (List Char × List Char)) (m : List (List Char × Interaction)),
      IMapInvG P g (ps.map fun p => interKey p.1 p.2) m →
      (∀ p ∈ ps, p.1 ≠ p.2 ∧ '|' ∉ p.1 ∧ '|' ∉ p.2) →
      ((ps.map fun p => interKey p.1 p.2)).Nodup →
      IMapInvG P g [] (ps.foldl (fun m p => interUpd g p.1 p.2 m) m) := by
  intro ps
  induction ps with
  | nil => intro m hm _ _; exact hm
  | cons p ps ih =>
    intro m hm hps hnd
    obtain ⟨c1, c2⟩ := p
    simp only [List.map_cons] at hm hnd
    have hp := hps (c1, c2) (List.mem_cons_self _ _)
    refine ih _ ?_ (fun q hq => hps q (List.mem_cons_of_mem _ hq))
      (List.nodup_cons.1 hnd).2
    exact interUpd_stepG hm (List.nodup_cons.1 hnd).1 hp.1 hp.2.1 hp.2.2

theorem imapinv_to_G {P : List Nat} {g : Nat} {m : List (List Char × Interaction)}
    (hm : IMapInv P m) (hg : g ∉ P) (ks : List (List Char)) : IMapInvG P g ks m := by
  refine ⟨hm.keys_nodup, hm.key_eq, hm.char_ne, hm.pipes, hm.scn_nodup, ?_, hm.cnt, ?_⟩
  · intro e he x hx
    exact List.mem_append.2 (.inl (hm.scn_sub e he x hx))
  · intro e he _
    intro hgx
    exact hg (hm.scn_sub e he g hgx)

theorem imapinv_of_G {P : List Nat} {g : Nat} {m : List (List Char × Interaction)}
    (hm : IMapInvG P g [] m) : IMapInv (P ++ [g]) m :=
  ⟨hm.keys_nodup, hm.key_eq, hm.char_ne, hm.pipes, hm.scn_nodup, hm.scn_sub, hm.cnt⟩

theorem processGroup_inv {P : List Nat} {m : List (List Char × Interaction)}
    (hm : IMapInv P m) {g : Nat × List DialogueEntry}
    (hg : g.1 ∉ P) (hpipe : ∀ d ∈ g.2, '|' ∉ d.characters) :
    IMapInv (P ++ [g.1]) (processGroup m g) := by
  unfold processGroup
  have hdnd : (dedupFirst (g.2.map (·.characters))).Nodup := dedupFirst_nodup _
  have hdpipe : ∀ x ∈ dedupFirst (g.2.map (·.characters)), '|' ∉ x := by
    refine dedupFirst_pred ?_
    intro x hx
    rcases List.mem_map.1 hx with ⟨d, hd, hd2⟩
    exact hd2 ▸ hpipe d hd
  refine imapinv_of_G (foldl_interUpd_invG _ m (imapinv_to_G hm hg _) ?_ ?_)
  · intro p hp
    obtain ⟨c1, c2⟩ := p
    have hpm := mem_allPairs hp
    exact ⟨allPairs_ne hdnd (c1, c2) hp, hdpipe c1 hpm.1, hdpipe c2 hpm.2⟩
  · exact pairKeys_nodup hdnd hdpipe

theorem foldl_processGroup_inv :
    ∀ (gs : List (Nat × List DialogueEntry)) (P : List Nat)
      (m : List (List Char × Interaction)),
      IMapInv P m → (gs.map (·.1)).Nodup → (∀ k ∈ gs.map (·.1), k ∉ P) →
      (∀ e ∈ gs, ∀ d ∈ e.2, '|' ∉ d.characters) →
      IMapInv (P ++ gs.map (·.1)) (gs.foldl processGroup m) := by
  intro gs
  induction gs with
  | nil => intro P m hm _ _ _; simpa using hm
  | cons g gs ih =>
    intro P m hm hnd hfresh hpipe
    simp only [List.map_cons] at hnd hfresh ⊢
    have h1 : IMapInv (P ++ [g.1]) (processGroup m g) :=
      processGroup_inv hm (hfresh g.1 (List.mem_cons_self _ _))
        (hpipe g (List.mem_cons_self _ _))
    have h2 := ih (P ++ [g.1]) (processGroup m g) h1 (List.nodup_cons.1 hnd).2 ?_ ?_
    · rw [show P ++ g.1 :: gs.map (·.1) = (P ++ [g.1]) ++ gs.map (·.1) by simp]
      exact h2
    · intro k hk
      intro hkmem
      rcases List.mem_append.1 hkmem with hA | hA
      · exact hfresh k (List.mem_cons_of_mem _ hk) hA
      · rw [List.mem_singleton.1 hA] at hk
        exact (List.nodup_cons.1 hnd).1 hk
    · intro e he
      exact hpipe e (List.mem_cons_of_mem _ he)

theorem interMap_inv (dialogues : List DialogueEntry)
    (hpipe : ∀ d ∈ dialogues, '|' ∉ d.characters) :
    IMapInv ((groupDialogues dialogues).map (·.1)) (interMapOf dialogues) := by
  have h0 : IMapInv [] ([] : List (List Char × Interaction)) := by
    refine ⟨by simp, ?_, ?_, ?_, ?_, ?_, ?_⟩ <;> intro e he <;> simp at he
  have := foldl_processGroup_inv (groupDialogues dialogues) [] [] h0
    (groupDialogues_keys_nodup dialogues) (by simp)
    (fun e he d hd => groupDialogues_pred hpipe e he d hd)
  simpa using this

/-! ## Claim C6 -/

/-- C6: for every input text, the Interaction output has no self-pairs, each
unordered character pair appears at most once, each record's `scenes` list
has no duplicates, and `interactionCount` equals `scenes.length`. -/
theorem claim_C6_interaction_invariants (text : String) :
    (∀ r ∈ (parseScreenplay text).interactions,
        r.character1 ≠ r.character2 ∧ r.scenes.Nodup ∧
        r.interactionCount = r.scenes.length) ∧
    (parseScreenplay text).interactions.Pairwise
      (fun r r' => ¬ unordEq (r.character1, r.character2)
        (r'.character1, r'.character2)) := by
  have hinv := interMap_inv (finalState text).dialogues (final_dlg_pipe text)
  constructor
  · intro r hr
    rcases List.mem_map.1 hr with ⟨e, he, he2⟩
    subst he2
    exact ⟨hinv.char_ne e he, hinv.scn_nodup e he, hinv.cnt e he⟩
  · show ((interMapOf (finalState text).dialogues).map (·.2)).Pairwise _
    refine (List.pairwise_map).2 ?_
    have hkeys : (interMapOf (finalState text).dialogues).Pairwise
        (fun e e' => e.1 ≠ e'.1) := (List.pairwise_map).1 hinv.keys_nodup
    refine List.Pairwise.imp_of_mem ?_ hkeys
    intro e e' he he' hne hu
    apply hne
    rw [hinv.key_eq e he, hinv.key_eq e' he']
    exact interKey_unord hu

/-- C6 witness: the theorem applied to a concrete interaction record. -/
theorem claim_C6_witness :
    "MARY".data ≠ "JOHN".data ∧ ([1] : List Nat).Nodup ∧ 1 = ([1] : List Nat).length :=
  (claim_C6_interaction_invariants "INT. A - DAY\nMARY: Hi.\nJOHN: Yo.").1
    { character1 := "MARY".data, character2 := "JOHN".data,
      scenes := [1], interactionCount := 1 } (by decide)

/-! ## Claim C5 -/

/-- C5 counterexample: in the scene `INT. A - DAY` where MARY speaks before
JOHN, the produced Interaction record stores `character1 = MARY`,
`character2 = JOHN`, which is not in lexicographically sorted order. -/
theorem claim_C5_counterexample :
    ¬ (∀ r ∈ (parseScreenplay "INT. A - DAY\nMARY: Hi.\nJOHN: Yo.").interactions,
        lexLt r.character1 r.character2 = true) := by
  decide

/-- C5 (amended): the lexicographically sorted pair appears only in the
interaction `Map` key (`[char1, char2].sort().join('|')`); the stored
`character1`/`character2` fields keep the within-scene first-speaker order
and are merely distinct, not sorted. -/
theorem claim_C5_amended (text : String) :
    ∀ e ∈ interMapOf (parseScreenplay text).dialogues,
      e.1 = interKey e.2.character1 e.2.character2 ∧
      e.2.character1 ≠ e.2.character2 := by
  have hinv := interMap_inv (finalState text).dialogues (final_dlg_pipe text)
  intro e he
  exact ⟨hinv.key_eq e he, hinv.char_ne e he⟩

/-- C5 witness: the amended claim applied to the concrete record created by
MARY and JOHN sharing scene 1. -/
theorem claim_C5_witness :
    "JOHN|MARY".data = interKey "MARY".data "JOHN".data ∧
    "MARY".data ≠ "JOHN".data :=
  claim_C5_amended "INT. A - DAY\nMARY: Hi.\nJOHN: Yo."
    ("JOHN|MARY".data,
     { character1 := "MARY".data, character2 := "JOHN".data,
       scenes := [1], interactionCount := 1 }) (by decide)

/-! ## `extractLocation` agrees with the spec's description on headings
without a leading scene number (and terminator-free lines) -/

theorem lazyLocAux_eq_lazyTake :
    ∀ (l : List Char) (acc : List Char), l ≠ [] →
      (∀ c ∈ l, isLineTerm c = false) →
      lazyLocAux acc l = some (acc ++ lazyTake l) := by
  intro l
  induction l with
  | nil => intro acc h _; exact absurd rfl h
  | cons c rest ih =>
    intro acc _ hterm
    have hc : isLineTerm c = false := hterm c (List.mem_cons_self _ _)
    unfold lazyLocAux lazyTake
    rw [hc]
    simp only [Bool.false_eq_true, if_false]
    by_cases hstop : (rest.isEmpty || sepAt rest) = true
    · rw [if_pos hstop, if_pos hstop]
    · rw [if_neg hstop, if_neg hstop]
      have hne : rest ≠ [] := by
        intro hr
        exact hstop (by rw [hr]; simp)
      rw [ih (acc ++ [c]) hne (fun x hx => hterm x (List.mem_cons_of_mem _ hx))]
      simp

theorem locTry_all_ws :
    ∀ l : List Char, l ≠ [] →
      (∀ c ∈ l, jsWs c = true ∧ isLineTerm c = false) →
      ∃ c, locTry l = some [c] ∧ jsWs c = true := by
  intro l
  induction l with
  | nil => intro h _; exact absurd rfl h
  | cons c rest ih =>
    intro _ hl
    have hc := hl c (List.mem_cons_self _ _)
    unfold locTry
    rw [hc.1]
    simp only [if_true]
    cases hrest : rest with
    | nil =>
      subst hrest
      refine ⟨c, ?_, hc.1⟩
      show (match locTry [] with
            | some v => some v
            | none => lazyLocAux [] [c]) = some [c]
      show lazyLocAux [] [c] = some [c]
      unfold lazyLocAux
      rw [hc.2]
      simp
    | cons x xs =>
      subst hrest
      obtain ⟨c', hc', hwc'⟩ := ih (by simp)
        (fun y hy => hl y (List.mem_cons_of_mem _ hy))
      refine ⟨c', ?_, hwc'⟩
      rw [hc']

theorem locTry_ws_then :
    ∀ (w : List Char) (r : List Char), (∀ c ∈ w, jsWs c = true) →
      r ≠ [] → (∀ c ∈ r, isLineTerm c = false) →
      (match r with | x :: _ => jsWs x = false | [] => True) →
      locTry (w ++ r) = some (lazyTake r) := by
  intro w
  induction w with
  | nil =>
    intro r _ hne hterm hhead
    cases r with
    | nil => exact absurd rfl hne
    | cons x r' =>
      show locTry (x :: r') = some (lazyTake (x :: r'))
      unfold locTry
      rw [hhead]
      simp only [Bool.false_eq_true, if_false]
      exact lazyLocAux_eq_lazyTake (x :: r') [] (by simp) hterm
  | cons c w' ih =>
    intro r hw hne hterm hhead
    show locTry (c :: (w' ++ r)) = some (lazyTake r)
    unfold locTry
    rw [hw c (List.mem_cons_self _ _)]
    simp only [if_true]
    rw [ih r (fun x hx => hw x (List.mem_cons_of_mem _ hx)) hne hterm hhead]

theorem lazyTake_eq_takeUntilSep :
    ∀ l : List Char, sepAt l = false → lazyTake l = takeUntilSep l := by
  intro l
  induction l with
  | nil => intro _; rfl
  | cons c rest ih =>
    intro hsep
    unfold lazyTake takeUntilSep
    rw [hsep]
    simp only [Bool.false_eq_true, if_false]
    by_cases hstop : (rest.isEmpty || sepAt rest) = true
    · rw [if_pos hstop]
      have hstop2 := hstop
      simp only [Bool.or_eq_true] at hstop2
      rcases hstop2 with h1 | h1
      · rw [List.isEmpty_iff.1 h1]
        rfl
      · cases hrest : rest with
        | nil => rfl
        | cons y ys =>
          subst hrest
          show [c] = c :: takeUntilSep (y :: ys)
          unfold takeUntilSep
          rw [h1]
          simp
    · rw [if_neg hstop]
      have hrs : sepAt rest = false := by
        rcases Bool.eq_false_or_eq_true (sepAt rest) with hx | hx
        · exact absurd (by simp [hx]) hstop
        · exact hx
      rw [ih hrs]

theorem stripPatCI_mem {a : Char} :
    ∀ {pat l rest : List Char}, stripPatCI pat l = some rest → a ∈ rest → a ∈ l := by
  intro pat
  induction pat with
  | nil =>
    intro l rest h ha
    simp only [stripPatCI, Option.some.injEq] at h
    exact h ▸ ha
  | cons p ps ih =>
    intro l rest h ha
    cases l with
    | nil => simp [stripPatCI] at h
    | cons c cs =>
      simp only [stripPatCI] at h
      split at h
      · exact List.mem_cons_of_mem _ (ih h ha)
      · simp at h

theorem stripSlugCI_mem {a : Char} {l rest : List Char}
    (h : stripSlugCI l = some rest) (ha : a ∈ rest) : a ∈ l := by
  unfold stripSlugCI at h
  split at h
  · rename_i r heq
    cases h
    exact stripPatCI_mem heq ha
  · split at h
    · rename_i r heq
      cases h
      exact stripPatCI_mem heq ha
    · split at h
      · rename_i r heq
        cases h
        exact stripPatCI_mem heq ha
      · exact stripPatCI_mem h ha

theorem stripLeadNum_none {h : List Char} (hd : startsWithDigit h = false) :
    stripLeadNum h = none := by
  unfold stripLeadNum
  cases h with
  | nil => rfl
  | cons c cs =>
    have : isDigitC c = false := by simpa [startsWithDigit] using hd
    simp [List.takeWhile_cons, this]

theorem sceneIsHeading_no_num {h : List Char} (hd : startsWithDigit h = false)
    (hh : sceneIsHeading h = true) :
    ∃ rest, stripSlugCI h = some rest ∧ matchWsThenDot rest = true := by
  unfold sceneIsHeading at hh
  rw [stripLeadNum_none hd] at hh
  simp only [Bool.false_or] at hh
  revert hh
  cases hslug : stripSlugCI h with
  | none => intro hh; simp at hh
  | some rest => intro hh; exact ⟨rest, rfl, hh⟩

theorem extractLocation_eq_locSpec {h : List Char}
    (hh : sceneIsHeading h = true)
    (hd : startsWithDigit h = false)
    (ht : ∀ c ∈ h, isLineTerm c = false) :
    extractLocation h = locSpec h := by
  obtain ⟨rest, hslug, hws⟩ := sceneIsHeading_no_num hd hh
  have htr : ∀ c ∈ rest, isLineTerm c = false :=
    fun c hc => ht c (stripSlugCI_mem hslug hc)
  have hloc : locSpec h = jsTrim (takeUntilSep (rest.dropWhile jsWs)) := by
    unfold locSpec
    rw [hd]
    simp only [Bool.false_eq_true, if_false]
    rw [hslug]
  rw [hloc]
  unfold extractLocation
  rw [hslug]
  cases rest with
  | nil => simp [matchWsThenDot] at hws
  | cons c rest' =>
    unfold matchWsThenDot at hws
    rw [Bool.and_eq_true] at hws
    have hwc : jsWs c = true := hws.1
    have hdrop : (c :: rest').dropWhile jsWs = rest'.dropWhile jsWs := by
      rw [List.dropWhile_cons, if_pos hwc]
    rw [hdrop]
    show (if jsWs c = true then
            (match locTry rest' with
             | some v => jsTrim v
             | none => []) else []) = jsTrim (takeUntilSep (rest'.dropWhile jsWs))
    rw [if_pos hwc]
    cases hr : rest'.dropWhile jsWs with
    | nil =>
      have hallws : ∀ x ∈ rest', jsWs x = true := by
        intro x hx
        have hsplit := List.takeWhile_append_dropWhile jsWs rest'
        rw [hr, List.append_nil] at hsplit
        rw [← hsplit] at hx
        exact List.mem_takeWhile_imp hx
      cases hrest' : rest' with
      | nil => rfl
      | cons y ys =>
        have hallws' : ∀ x ∈ y :: ys, jsWs x = true := by
          rw [← hrest']; exact hallws
        have hterm' : ∀ x ∈ y :: ys, isLineTerm x = false := by
          rw [← hrest']
          exact fun x hx => htr x (List.mem_cons_of_mem _ hx)
        obtain ⟨cw, hcw, hwsw⟩ := locTry_all_ws (y :: ys) (by simp)
          (fun x hx => ⟨hallws' x hx, hterm' x hx⟩)
        rw [hcw]
        show jsTrim [cw] = jsTrim (takeUntilSep [])
        have hj : jsTrim [cw] = [] := by
          unfold jsTrim
          rw [show [cw].dropWhile jsWs = [] from by simp [List.dropWhile_cons, hwsw]]
          rfl
        rw [hj]
        rfl
    | cons x r' =>
      have hxnw : jsWs x = false := dropWhile_head_false hr
      have hsplit : rest' = rest'.takeWhile jsWs ++ (x :: r') := by
        rw [← hr]
        exact (List.takeWhile_append_dropWhile jsWs rest').symm
      have hterm_r : ∀ cc ∈ (x :: r'), isLineTerm cc = false := by
        intro cc hcc
        apply htr
        apply List.mem_cons_of_mem
        rw [hsplit]
        exact List.mem_append.2 (.inr hcc)
      have hwall : ∀ cc ∈ rest'.takeWhile jsWs, jsWs cc = true :=
        fun cc hcc => List.mem_takeWhile_imp hcc
      have hlt : locTry rest' = some (lazyTake (x :: r')) := by
        conv_lhs => rw [hsplit]
        exact locTry_ws_then _ _ hwall (by simp) hterm_r hxnw
      rw [hlt]
      show jsTrim (lazyTake (x :: r')) = jsTrim (takeUntilSep (x :: r'))
      rw [lazyTake_eq_takeUntilSep]
      show (jsWs x && sepAfterWs r') = false
      rw [hxnw]
      rfl

/-! ## Claim C4 -/

/-- C4 counterexample: the heading `"12 INT. HOUSE - DAY"` (with an optional
leading scene number) produces a scene whose `location` is the empty string,
not `HOUSE` (the text after the slug up to the dash separator):
`extractLocation`'s regex has no leading-number group. -/
theorem claim_C4_counterexample :
    ¬ (∀ sc ∈ (parseScreenplay "12 INT. HOUSE - DAY").scenes,
        sc.location = locSpec sc.Scene_Names) := by
  decide

/-- C4 (amended): for every scene whose heading line has no leading scene
number (and contains no JavaScript line-terminator characters), the
`location` field equals the spec's description: the text after the
`INT./EXT./INTERIOR/EXTERIOR` slug up to a dash/en-dash separator or end of
line.  For a heading with a leading scene number, `extractLocation` fails to
match and the stored location is the empty string. -/
theorem claim_C4_amended (text : String) :
    ∀ sc ∈ (parseScreenplay text).scenes,
      startsWithDigit sc.Scene_Names = false →
      (∀ c ∈ sc.Scene_Names, isLineTerm c = false) →
      sc.location = locSpec sc.Scene_Names := by
  intro sc hsc hd ht
  have hfin := final_scn_loc text sc hsc
  rw [hfin.1]
  exact extractLocation_eq_locSpec hfin.2 hd ht

/-- C4 witness: the amended claim applied to the concrete scene produced by
`"INT. HOUSE - DAY"`. -/
theorem claim_C4_witness :
    ("HOUSE".data : List Char) = locSpec "INT. HOUSE - DAY".data :=
  claim_C4_amended "INT. HOUSE - DAY"
    { sceneNumber := 1, Scene_Names := "INT. HOUSE - DAY".data,
      Scene_action := [], Scene_Characters := none, Scene_Dialogue := none,
      Contents := ['\n'], location := "HOUSE".data, timeOfDay := "DAY".data }
    (by decide) (by decide) (by decide)

end FilmScript
